import Mathlib

/-!
Shallow embedding of `subtype_model.py` (pschulam/subtype) and verification
of its specification claims.

The trajectory utilities are embedded generically over a linear ordered
field, so that witnesses can be evaluated on rational inputs; the mixture
model itself is embedded over the real numbers.  External collaborators of
the repository (the basis and covariance evaluators, the linear solver, the
multivariate-normal log-density, the Dirichlet sampler and the
logistic-regression classifier) are outside the two source files and enter
the embedding as function-valued parameters, following the interface the
spec assigns to them.  Floating-point arithmetic is modelled by exact real
arithmetic; the `-float('inf')` sentinel in the log-likelihood trace of
`fit` is modelled with extended reals.
-/

/-- Embedding of `Trajectory = namedtuple('Trajectory', ['key', 't', 'y', 'covariates'])`. -/
structure Trajectory (α : Type) where
  key : ℕ
  t : List α
  y : List α
  covariates : List α
deriving DecidableEq

/-- Row of the input dataframe: a subject key, a time value and a marker value. -/
structure DataRow (α : Type) where
  key : ℕ
  time : α
  marker : α
deriving DecidableEq

/-- Embedding of Python dict / `OrderedDict` insertion `d[k] = v`: replace the
value in place when the key is present, otherwise append the binding. -/
def odInsert {β : Type} (m : List (ℕ × β)) (k : ℕ) (v : β) : List (ℕ × β) :=
  if (m.lookup k).isSome then m.map (fun p => if p.1 = k then (k, v) else p)
  else m ++ [(k, v)]

/-- Embedding of `make_trajectories`: group the rows by key, sort each group's
time/marker pairs ascending by time (`t[idx], y[idx]` with `idx = np.argsort(t)`
is modelled as a sort of the zipped pairs by time), and attach the default
covariate vector `np.ones(1)`.  Each key is visited once, in order of first
appearance. -/
def make_trajectories {α : Type} [LinearOrderedField α] (rows : List (DataRow α)) :
    List (Trajectory α) :=
  ((rows.map (·.key)).dedup).map (fun k =>
    let grp := rows.filter (fun r => decide (r.key = k))
    let pairs := (grp.map (fun r => (r.time, r.marker))).mergeSort
      (fun a b => decide (a.1 ≤ b.1))
    { key := k, t := pairs.map Prod.fst, y := pairs.map Prod.snd,
      covariates := [1] })

/-- Embedding of `add_covariates`.  The design matrix that patsy's `dmatrix`
(an external collaborator) evaluates from the formula, together with the key
column, is supplied as a list of (key, covariate row) pairs; the Python dict
comprehension over `zip(row_keys, cov_matrix)` is modelled with `odInsert`.
A trajectory whose key is absent fails (Python raises `KeyError`). -/
def add_covariates {α : Type} [LinearOrderedField α]
    (trajectories : List (Trajectory α)) (cov_rows : List (ℕ × List α)) :
    Except String (List (Trajectory α)) :=
  let covariates := cov_rows.foldl (fun m p => odInsert m p.1 p.2) []
  trajectories.mapM (fun trj =>
    match covariates.lookup trj.key with
    | some v => Except.ok { trj with covariates := v }
    | none => Except.error "KeyError")

/-- Embedding of `truncate_trajectory`.  With `num_obs` it keeps the first
`num_obs` observations; otherwise, with `censoring_time`, it keeps the
observations whose time is strictly below it (the boolean mask `t < c` is
applied to `y` positionally, modelled by filtering the zipped pairs); with
neither the code raises `RuntimeError`. -/
def truncate_trajectory {α : Type} [LinearOrderedField α]
    (trajectory : Trajectory α) (num_obs : Option ℕ := none)
    (censoring_time : Option α := none) : Except String (Trajectory α) :=
  match num_obs with
  | some n =>
      Except.ok { trajectory with t := trajectory.t.take n, y := trajectory.y.take n }
  | none =>
      match censoring_time with
      | some c =>
          Except.ok { trajectory with
            t := trajectory.t.filter (fun x => decide (x < c)),
            y := ((trajectory.t.zip trajectory.y).filter
                    (fun p => decide (p.1 < c))).map Prod.snd }
      | none => Except.error "You must specify num_obs or censoring_time."

/-- Embedding of the generator `predictive_contexts`: one context per split
point `num_obs` in `range(1, n)`, pairing the truncated observed trajectory
with the held-out suffixes `t[num_obs:]` and `y[num_obs:]`. -/
def predictive_contexts {α : Type} [LinearOrderedField α]
    (trajectory : Trajectory α) : List (Trajectory α × List α × List α) :=
  (List.range' 1 (trajectory.t.length - 1)).filterMap (fun num_obs =>
    match truncate_trajectory trajectory (some num_obs) none with
    | Except.ok obs =>
        some (obs, trajectory.t.drop num_obs, trajectory.y.drop num_obs)
    | Except.error _ => none)

/-- Invariant of the data model: `len(t) == len(y)` and `t` sorted ascending. -/
@[reducible] def Trajectory.valid {α : Type} [LinearOrderedField α] (trj : Trajectory α) : Prop :=
  trj.t.length = trj.y.length ∧ List.Sorted (· ≤ ·) trj.t

/-- Real vectors (1-d numpy arrays). -/
abbrev RVec := List ℝ

/-- Real matrices as lists of rows (2-d numpy arrays). -/
abbrev RMat := List (List ℝ)

/-- Dot product of two vectors (`np.dot` on 1-d arrays). -/
noncomputable def dotV (u v : RVec) : ℝ := (List.zipWith (· * ·) u v).sum

/-- Matrix–vector product `A.dot(v)`. -/
noncomputable def matVec (A : RMat) (v : RVec) : RVec := A.map (fun r => dotV r v)

/-- Matrix transpose `A.T`. -/
def transposeM (A : RMat) : RMat := A.transpose

/-- Matrix–matrix product `A.dot(B)`. -/
noncomputable def matMul (A B : RMat) : RMat :=
  A.map (fun r => B.transpose.map (fun c => dotV r c))

/-- Elementwise vector sum (numpy `+`). -/
noncomputable def vecAdd (u v : RVec) : RVec := List.zipWith (· + ·) u v

/-- Elementwise vector difference (numpy `-`). -/
noncomputable def vecSub (u v : RVec) : RVec := List.zipWith (· - ·) u v

/-- Scalar multiple of a vector (numpy `w * v`). -/
noncomputable def smulV (w : ℝ) (v : RVec) : RVec := v.map (fun x => w * x)

/-- Elementwise matrix sum. -/
noncomputable def matAdd (A B : RMat) : RMat := List.zipWith vecAdd A B

/-- Scalar multiple of a matrix. -/
noncomputable def matSmul (w : ℝ) (A : RMat) : RMat := A.map (smulV w)

/-- Zero vector `np.zeros(n)`. -/
noncomputable def zeroVec (n : ℕ) : RVec := List.replicate n 0

/-- Zero matrix `np.zeros((m, n))`. -/
noncomputable def zeroMat (m n : ℕ) : RMat := List.replicate m (zeroVec n)

/-- Log-sum-exp reduction (`scipy.misc.logsumexp`), an external numerical
primitive; mathematically it is the log of the sum of exponentials, which is
what the numerically stable version computes. -/
noncomputable def logsumexp (xs : List ℝ) : ℝ := Real.log (xs.map Real.exp).sum

/-- Interface of the external basis-function evaluator: a fixed output width
`df` and a map from a time vector to a design matrix. -/
structure BasisFn where
  df : ℕ
  eval : RVec → RMat

/-- Interface of the external covariance-function evaluator: one time vector
gives a square covariance matrix, two give a cross-covariance matrix. -/
structure CovFn where
  eval1 : RVec → RMat
  eval2 : RVec → RVec → RMat

/-- Interface of the external classifier (`LogisticRegression`, imported from
a module outside the two source files): an opaque parameter blob together
with its training and prediction functions.  `predictF` models
`predict_prob(np.atleast_2d(covariates)).ravel()` for one covariate row. -/
structure Classifier where
  params : RMat
  fitF : RMat → RMat → RMat → RMat
  predictF : RMat → RVec → RVec

/-- External numerical primitives: `scipy.linalg.solve` on vector and matrix
right-hand sides, and `scipy.stats.multivariate_normal.logpdf`. -/
structure NumLib where
  solveV : RMat → RVec → RVec
  solveM : RMat → RMat → RMat
  mvnLogpdf : RVec → RVec → RMat → ℝ

/-- State of a `SubtypeMixture` model: the constructor arguments together
with the classifier instance and the coefficient matrix that `_init_params`
creates and `fit` later mutates. -/
structure SubtypeMixture where
  nsubtypes : ℕ
  ncovariates : ℕ
  basis : BasisFn
  cov : CovFn
  subtype_marginal : Classifier
  coef : RMat

/-- Embedding of `_init_params`: a freshly constructed classifier (supplied
by the external `LogisticRegression` constructor) and an all-zero coefficient
matrix of shape `(nsubtypes, basis.df)`. -/
noncomputable def SubtypeMixture.init_params (M : SubtypeMixture) (cls : Classifier) :
    SubtypeMixture :=
  { M with subtype_marginal := cls,
           coef := List.replicate M.nsubtypes (List.replicate M.basis.df 0) }

/-- Embedding of `SubtypeMixture.loglik`: the joint log-density of `y` and
subtype `z` — the log classifier probability of class `z` for the
trajectory's covariates plus the multivariate-normal log-density of `y` with
mean `X · coef[z]` and covariance `C`, where `X` and `C` default to the basis
and covariance evaluated at the trajectory's time points. -/
noncomputable def SubtypeMixture.loglik (M : SubtypeMixture) (L : NumLib)
    (trajectory : Trajectory ℝ) (z : ℕ) (X : Option RMat := none)
    (C : Option RMat := none) : ℝ :=
  let Xm := X.getD (M.basis.eval trajectory.t)
  let Cm := C.getD (M.cov.eval1 trajectory.t)
  let m := matVec Xm (M.coef.getD z [])
  let qz := M.subtype_marginal.predictF M.subtype_marginal.params trajectory.covariates
  Real.log (qz.getD z 0) + L.mvnLogpdf trajectory.y m Cm

/-- Embedding of `posterior`: `loglik` of every subtype, combined by
log-sum-exp, exponentiated normalized differences. -/
noncomputable def SubtypeMixture.posterior (M : SubtypeMixture) (L : NumLib)
    (trajectory : Trajectory ℝ) : RVec :=
  let all_loglik := (List.range M.nsubtypes).map (fun z => M.loglik L trajectory z)
  let marg_loglik := logsumexp all_loglik
  all_loglik.map (fun l => Real.exp (l - marg_loglik))

/-- Embedding of `predict`: posterior-weighted accumulation over the subtypes
of the Gaussian-process conditional mean `m1 + C1 · C2⁻¹ (y_obs - m2)` (the
inverse realised by the external solver), starting from
`np.zeros_like(t_new)`. -/
noncomputable def SubtypeMixture.predict (M : SubtypeMixture) (L : NumLib)
    (t_new : RVec) (trajectory : Trajectory ℝ) : RVec :=
  let X_new := M.basis.eval t_new
  let X_obs := M.basis.eval trajectory.t
  let y_obs := trajectory.y
  let C1 := M.cov.eval2 t_new trajectory.t
  let C2 := M.cov.eval1 trajectory.t
  let qz := M.posterior L trajectory
  qz.enum.foldl
    (fun y_new p =>
      let m1 := matVec X_new (M.coef.getD p.1 [])
      let m2 := matVec X_obs (M.coef.getD p.1 [])
      vecAdd y_new (smulV p.2 (vecAdd m1 (matVec C1 (L.solveV C2 (vecSub y_obs m2))))))
    (t_new.map (fun _ => 0))

/-- Formalisation of the spec's description of `predict` (claim C4), written
from the spec's words: pointwise, the sum over subtypes `z` of the posterior
weight times the conditional mean `m1 + C1 · C2⁻¹ (y_obs − m2)`. -/
noncomputable def predict_spec (M : SubtypeMixture) (L : NumLib) (t_new : RVec)
    (trajectory : Trajectory ℝ) : RVec :=
  (List.range t_new.length).map (fun j =>
    ((List.range M.nsubtypes).map (fun z =>
      (M.posterior L trajectory).getD z 0 *
        ((matVec (M.basis.eval t_new) (M.coef.getD z [])).getD j 0 +
          (matVec (M.cov.eval2 t_new trajectory.t)
            (L.solveV (M.cov.eval1 trajectory.t)
              (vecSub trajectory.y
                (matVec (M.basis.eval trajectory.t) (M.coef.getD z []))))).getD j 0))).sum)

/-- Checked list indexing; models numpy/Python `xs[i]` raising `IndexError`. -/
def getE {β : Type} (xs : List β) (i : ℕ) : Except String β :=
  if h : i < xs.length then Except.ok xs[i] else Except.error "index out of range"

/-- Checked list update; models `xs[i] = v` raising `IndexError`. -/
def setE {β : Type} (xs : List β) (i : ℕ) (v : β) : Except String (List β) :=
  if i < xs.length then Except.ok (xs.set i v) else Except.error "index out of range"

/-- Checked dictionary lookup; models `d[k]` raising `KeyError`. -/
def lookupE {β : Type} (m : List (ℕ × β)) (k : ℕ) : Except String β :=
  match m.lookup k with
  | some v => Except.ok v
  | none => Except.error "KeyError"

/-- Python `abs` on the extended reals carried by the log-likelihood trace. -/
noncomputable def eabs (a : EReal) : EReal := if a < 0 then -a else a

/-- Embedding of the namedtuple `TrajectoryData(X, C, cov_xx, cov_xy)`. -/
structure TrajectoryData where
  X : RMat
  C : RMat
  cov_xx : RMat
  cov_xy : RVec

/-- Per-trajectory cached sufficient statistics: the design matrix `X`, the
covariance `C`, `cov_xx = Xᵀ C⁻¹ X` and `cov_xy = Xᵀ C⁻¹ y` (the inverses
realised by the external solver). -/
noncomputable def traj_data (L : NumLib) (M : SubtypeMixture) (trj : Trajectory ℝ) :
    TrajectoryData :=
  let X := M.basis.eval trj.t
  let C := M.cov.eval1 trj.t
  { X := X, C := C,
    cov_xx := matMul (transposeM X) (L.solveM C X),
    cov_xy := matVec (transposeM X) (L.solveV C trj.y) }

/-- Embedding of the cache-building loop at the top of `fit` (an
`OrderedDict` keyed by `trj.key`). -/
noncomputable def buildCache (L : NumLib) (M : SubtypeMixture)
    (trajectories : List (Trajectory ℝ)) : List (ℕ × TrajectoryData) :=
  trajectories.foldl (fun m trj => odInsert m trj.key (traj_data L M trj)) []

/-- State of the EM loop in `fit`: the mutated model, the responsibilities
`qz`, the log-likelihood trace `logl` and the iteration counter. -/
structure EMState where
  model : SubtypeMixture
  qz : RMat
  logl : List EReal
  iteration : ℕ

/-- Embedding of the M-step accumulation loops of `fit`:
`for i, trj in enumerate(trajectories): for z, w in enumerate(qz[i]):
cov_xx[z] += w * cache[trj.key].cov_xx; cov_xy[z] += w * cache[trj.key].cov_xy`,
starting from `np.zeros((K, df, df))` and `np.zeros((K, df))`. -/
noncomputable def mStepSums (cache : List (ℕ × TrajectoryData))
    (trajectories : List (Trajectory ℝ)) (qz : RMat) (K df : ℕ) :
    Except String (List RMat × List RVec) :=
  trajectories.enum.foldlM
    (fun (acc : List RMat × List RVec) p => do
      let qzi ← getE qz p.1
      let td ← lookupE cache p.2.key
      qzi.enum.foldlM
        (fun (acc2 : List RMat × List RVec) q => do
          let cxx ← getE acc2.1 q.1
          let cxy ← getE acc2.2 q.1
          let axx ← setE acc2.1 q.1 (matAdd cxx (matSmul q.2 td.cov_xx))
          let axy ← setE acc2.2 q.1 (vecAdd cxy (smulV q.2 td.cov_xy))
          pure (axx, axy)) acc)
    (List.replicate K (zeroMat df df), List.replicate K (zeroVec df))

/-- Embedding of
`for z in range(self.nsubtypes): self.coef[z] = solve(cov_xx[z], cov_xy[z])`. -/
noncomputable def coefSolve (L : NumLib) (K : ℕ) (axx : List RMat) (axy : List RVec) :
    Except String RMat :=
  (List.range K).mapM (fun z => do
    let A ← getE axx z
    let b ← getE axy z
    pure (L.solveV A b))

/-- Embedding of the E-step loop of `fit`: recompute each subject's posterior
responsibilities from the cached `X` and `C`, and accumulate the marginal
log-likelihoods into `logl[iteration]`. -/
noncomputable def eStep (L : NumLib) (cache : List (ℕ × TrajectoryData))
    (trajectories : List (Trajectory ℝ)) (M : SubtypeMixture) (iteration : ℕ)
    (qz : RMat) (logl : List EReal) : Except String (RMat × List EReal) :=
  trajectories.enum.foldlM
    (fun (acc : RMat × List EReal) p => do
      let td ← lookupE cache p.2.key
      let all_loglik := (List.range M.nsubtypes).map
        (fun z => M.loglik L p.2 z (some td.X) (some td.C))
      let marg := logsumexp all_loglik
      let qz' ← setE acc.1 p.1 (all_loglik.map (fun l => Real.exp (l - marg)))
      let cur ← getE acc.2 iteration
      let logl' ← setE acc.2 iteration (cur + (marg : EReal))
      pure (qz', logl')) (qz, logl)

/-- One pass of the body of the `while True` loop in `fit` — everything
before the convergence test: the classifier M-step, the coefficient M-step
over the cached cross-products, and the E-step. -/
noncomputable def stepOnce (L : NumLib) (trajectories : List (Trajectory ℝ))
    (cache : List (ℕ × TrajectoryData)) (covariates : RMat) (st : EMState) :
    Except String EMState := do
  let iteration := st.iteration + 1
  let M := st.model
  let cls := M.subtype_marginal
  let cls' := { cls with params := cls.fitF covariates st.qz cls.params }
  let (axx, axy) ← mStepSums cache trajectories st.qz M.nsubtypes M.basis.df
  let coef' ← coefSolve L M.nsubtypes axx axy
  let M' := { M with subtype_marginal := cls', coef := coef' }
  let (qz', logl') ← eStep L cache trajectories M' iteration st.qz st.logl
  pure { model := M', qz := qz', logl := logl', iteration := iteration }

/-- The model state after the two M-steps of one loop pass: the classifier
parameters refitted on the covariates and current responsibilities, and the
coefficient matrix replaced. -/
noncomputable def updatedModel (M : SubtypeMixture) (covariates : RMat) (qz : RMat)
    (coef' : RMat) : SubtypeMixture :=
  { M with
    subtype_marginal := { M.subtype_marginal with
      params := M.subtype_marginal.fitF covariates qz M.subtype_marginal.params },
    coef := coef' }

/-- Embedding of the convergence test at the bottom of the loop body:
`delta = logl[iteration] - logl[iteration - 1]`,
`abs_delta = delta / abs(logl[iteration])`, stop when
`iteration >= max_iter or abs_delta < tol`. -/
noncomputable def stopCheck (max_iter : ℕ) (tol : ℝ) (st : EMState) :
    Except String Bool := do
  let cur ← getE st.logl st.iteration
  let prev ← getE st.logl (st.iteration - 1)
  let delta := cur - prev
  let abs_delta := delta / eabs cur
  pure (decide (max_iter ≤ st.iteration) || decide (abs_delta < (tol : EReal)))

/-- The `while True` loop of `fit`.  Python's loop is syntactically
unbounded; the fuel argument only has to dominate `max_iter`, which bounds
the number of passes the break condition allows. -/
noncomputable def emLoop (L : NumLib) (trajectories : List (Trajectory ℝ))
    (cache : List (ℕ × TrajectoryData)) (covariates : RMat)
    (max_iter : ℕ) (tol : ℝ) : ℕ → EMState → Except String EMState
  | 0, _ => Except.error "fuel exhausted"
  | fuel + 1, st => do
    let st' ← stepOnce L trajectories cache covariates st
    let stop ← stopCheck max_iter tol st'
    if stop then pure st'
    else emLoop L trajectories cache covariates max_iter tol fuel st'

/-- The loop body iterated `n` times, used to state where the loop stops. -/
noncomputable def stepN (L : NumLib) (trajectories : List (Trajectory ℝ))
    (cache : List (ℕ × TrajectoryData)) (covariates : RMat) :
    ℕ → EMState → Except String EMState
  | 0, st => pure st
  | n + 1, st =>
    stepOnce L trajectories cache covariates st >>= stepN L trajectories cache covariates n

/-- Embedding of `np.vstack` on a list of 1-D covariate rows: it raises a
`ValueError` on an empty argument ("need at least one array to concatenate")
and on rows of mismatched lengths, and otherwise returns the stacked rows. -/
def vstackE (rows : RMat) : Except String RMat :=
  match rows with
  | [] => Except.error "need at least one array to concatenate"
  | r :: rs =>
    if rs.all (fun x => decide (x.length = r.length)) then Except.ok (r :: rs)
    else Except.error "all the input array dimensions must match"

/-- Embedding of `fit` up to its final `return self`: build the cache, stack
the covariate rows with `np.vstack` (which fails before the loop on an empty
or ragged covariate list), initialise the trace `logl = np.zeros(max_iter + 1)`
with `-inf` at index 0, and run the EM loop.  `qz0` is the externally sampled
Dirichlet initialisation of the responsibilities. -/
noncomputable def SubtypeMixture.fitFull (M : SubtypeMixture) (L : NumLib)
    (trajectories : List (Trajectory ℝ)) (qz0 : RMat) (max_iter : ℕ) (tol : ℝ) :
    Except String EMState := do
  let cache := buildCache L M trajectories
  let covariates ← vstackE (trajectories.map (·.covariates))
  let logl ← setE (List.replicate (max_iter + 1) ((0 : ℝ) : EReal)) 0 ⊥
  emLoop L trajectories cache covariates max_iter tol (max_iter + 1)
    { model := M, qz := qz0, logl := logl, iteration := 0 }

/-- Embedding of `fit`: the caller receives only the mutated model
(`return self`); the log-likelihood trace and the iteration count are local
to the call and are discarded. -/
noncomputable def SubtypeMixture.fit (M : SubtypeMixture) (L : NumLib)
    (trajectories : List (Trajectory ℝ)) (qz0 : RMat) (max_iter : ℕ) (tol : ℝ) :
    Except String SubtypeMixture :=
  (M.fitFull L trajectories qz0 max_iter tol).map (·.model)

/-- Formalisation of the spec's M-step system for claim C5, written from the
spec's words: the `qz`-weighted sum over the subjects of the cached
`cov_xx` for subtype `z`. -/
noncomputable def mstep_xx_spec (L : NumLib) (N : SubtypeMixture)
    (trajectories : List (Trajectory ℝ)) (qz : RMat) (df z : ℕ) : RMat :=
  (qz.zip trajectories).foldl
    (fun A p => matAdd A (matSmul (p.1.getD z 0) (traj_data L N p.2).cov_xx))
    (zeroMat df df)

/-- The `qz`-weighted sum over the subjects of the cached `cov_xy` for
subtype `z`. -/
noncomputable def mstep_xy_spec (L : NumLib) (N : SubtypeMixture)
    (trajectories : List (Trajectory ℝ)) (qz : RMat) (df z : ℕ) : RVec :=
  (qz.zip trajectories).foldl
    (fun b p => vecAdd b (smulV (p.1.getD z 0) (traj_data L N p.2).cov_xy))
    (zeroVec df)

/-- Replace only the external basis/covariance evaluator functions of a
model, keeping `df` and all fitted state. -/
def SubtypeMixture.withEvals (M : SubtypeMixture) (b : RVec → RMat)
    (c1 : RVec → RMat) (c2 : RVec → RVec → RMat) : SubtypeMixture :=
  { M with basis := { df := M.basis.df, eval := b },
           cov := { eval1 := c1, eval2 := c2 } }

/-- Lift `SubtypeMixture.withEvals` to a loop state. -/
def EMState.withEvals (st : EMState) (b : RVec → RMat) (c1 : RVec → RMat)
    (c2 : RVec → RVec → RMat) : EMState :=
  { st with model := st.model.withEvals b c1 c2 }

/-- The run described by a `fitFull` result stopped with the normalized
log-likelihood change below `tol`. -/
def stoppedByTol (tol : ℝ) (r : Except String EMState) : Prop :=
  ∃ st cur prev, r = Except.ok st ∧ getE st.logl st.iteration = Except.ok cur ∧
    getE st.logl (st.iteration - 1) = Except.ok prev ∧
    (cur - prev) / eabs cur < (tol : EReal)

/-- Concrete external numerics for witnesses: the solver returns fixed
vectors and matrices and the normal log-density is constantly `-1`. -/
noncomputable def numlib0 : NumLib :=
  { solveV := fun _ _ => [0], solveM := fun _ _ => [[0]],
    mvnLogpdf := fun _ _ _ => -1 }

/-- Concrete basis evaluator of width 1 for witnesses. -/
noncomputable def basis0 : BasisFn := { df := 1, eval := fun v => v.map (fun _ => [1]) }

/-- Concrete covariance evaluator for witnesses. -/
noncomputable def cov0 : CovFn :=
  { eval1 := fun v => v.map (fun _ => [1]), eval2 := fun a _ => a.map (fun _ => [1]) }

/-- Concrete classifier for witnesses: training is the identity on the
parameters and the predicted class distribution is the point mass `[1]`. -/
noncomputable def cls0 : Classifier :=
  { params := [[0]], fitF := fun _ _ p => p, predictF := fun _ _ => [1] }

/-- Concrete one-subtype model for witnesses. -/
noncomputable def model0 : SubtypeMixture :=
  { nsubtypes := 1, ncovariates := 1, basis := basis0, cov := cov0,
    subtype_marginal := cls0, coef := [[0]] }

/-- Concrete one-observation real trajectory for witnesses. -/
noncomputable def rtrj0 : Trajectory ℝ :=
  { key := 0, t := [0], y := [0], covariates := [1] }

/-- The cache `fit` builds for `[rtrj0]`. -/
noncomputable def cache0 : List (ℕ × TrajectoryData) := buildCache numlib0 model0 [rtrj0]

/-- Concrete rational trajectory used in witnesses. -/
def qtrj0 : Trajectory ℚ := { key := 0, t := [1, 2], y := [3, 4], covariates := [1] }

/-- Concrete three-observation rational trajectory used in witnesses. -/
def qtrj1 : Trajectory ℚ := { key := 1, t := [1, 2, 3], y := [4, 5, 6], covariates := [1] }

/-- Concrete dataframe rows used in witnesses. -/
def qrows0 : List (DataRow ℚ) := [⟨0, 2, 5⟩, ⟨0, 1, 4⟩]

section TrajectoryTheorems

variable {α : Type} [LinearOrderedField α]

/-- Filtering the time list by a predicate and masking the value list with the
same predicate on the times is the same as filtering the zipped pairs. -/
theorem filter_zip_mask (p : α → Bool) :
    ∀ (t : List α) (y : List β), t.length = y.length →
      (t.filter p).zip (((t.zip y).filter (fun q => p q.1)).map Prod.snd) =
        (t.zip y).filter (fun q => p q.1) := by
  intro t
  induction t with
  | nil => intro y h; simp
  | cons a t ih =>
    intro y h
    cases y with
    | nil => simp at h
    | cons b y =>
      simp only [List.length_cons, Nat.succ.injEq] at h
      by_cases hp : p a = true
      · simp [List.filter_cons, hp, ih y h]
      · simp only [Bool.not_eq_true] at hp
        simp [List.filter_cons, hp, ih y h]

/-- Lengths of the two components produced by the censoring branch agree. -/
theorem length_filter_mask (p : α → Bool) :
    ∀ (t : List α) (y : List β), t.length = y.length →
      (t.filter p).length =
        (((t.zip y).filter (fun q => p q.1)).map Prod.snd).length := by
  intro t
  induction t with
  | nil => intro y h; simp
  | cons a t ih =>
    intro y h
    cases y with
    | nil => simp at h
    | cons b y =>
      simp only [List.length_cons, Nat.succ.injEq] at h
      by_cases hp : p a = true
      · simp [List.filter_cons, hp, ih y h]
      · simp only [Bool.not_eq_true] at hp
        simp [List.filter_cons, hp, ih y h]

/-- C7: `truncate_trajectory` keeps the key and covariates; with `num_obs` it
keeps the first `num_obs` observations, taking precedence over any
`censoring_time` supplied at the same time; with only `censoring_time` it
keeps exactly the observations with time strictly below it — in particular
none at all when the censoring time is at or before the first time point of a
sorted trajectory — and it fails with the invalid-argument error exactly when
neither selector is given. -/
theorem truncate_trajectory_cases (trj : Trajectory α) :
    (truncate_trajectory trj none none =
      Except.error "You must specify num_obs or censoring_time.") ∧
    (∀ (n : ℕ) (ct : Option α), truncate_trajectory trj (some n) ct =
      Except.ok { trj with t := trj.t.take n, y := trj.y.take n }) ∧
    (∀ c : α, trj.t.length = trj.y.length →
      ∃ out, truncate_trajectory trj none (some c) = Except.ok out ∧
        out.key = trj.key ∧ out.covariates = trj.covariates ∧
        out.t.zip out.y = (trj.t.zip trj.y).filter (fun q => decide (q.1 < c))) ∧
    (∀ c : α, List.Sorted (· ≤ ·) trj.t → c ≤ trj.t.headD c →
      truncate_trajectory trj none (some c) =
        Except.ok { trj with t := [], y := [] }) := by
  refine ⟨rfl, fun n ct => rfl, fun c hlen => ?_, fun c hs hc => ?_⟩
  · exact ⟨_, rfl, rfl, rfl, filter_zip_mask (fun x => decide (x < c)) trj.t trj.y hlen⟩
  · have hub : ∀ x ∈ trj.t, ¬(x < c) := by
      intro x hx
      cases ht : trj.t with
      | nil => rw [ht] at hx; simp at hx
      | cons a l =>
        rw [ht] at hx hs hc
        simp only [List.headD_cons] at hc
        rcases List.mem_cons.mp hx with h | h
        · exact not_lt.mpr (h ▸ hc)
        · exact not_lt.mpr (le_trans hc (List.rel_of_sorted_cons hs x h))
    have h1 : trj.t.filter (fun x => decide (x < c)) = [] := by
      simp only [List.filter_eq_nil_iff, decide_eq_true_eq]
      exact hub
    have h2 : (trj.t.zip trj.y).filter (fun q => decide (q.1 < c)) = [] := by
      simp only [List.filter_eq_nil_iff, decide_eq_true_eq]
      intro q hq
      exact hub q.1 (List.of_mem_zip hq).1
    simp only [truncate_trajectory, h1, h2, List.map_nil]

/-- Witness for the C7 theorem on a concrete rational trajectory. -/
theorem truncate_trajectory_cases_witness :
    (truncate_trajectory qtrj0 none none =
      Except.error "You must specify num_obs or censoring_time.") ∧
    (truncate_trajectory qtrj0 (some 1) (some 5) =
      Except.ok { qtrj0 with t := qtrj0.t.take 1, y := qtrj0.y.take 1 }) ∧
    (truncate_trajectory qtrj0 none (some 1) =
      Except.ok { qtrj0 with t := [], y := [] }) :=
  ⟨(truncate_trajectory_cases qtrj0).1,
   (truncate_trajectory_cases qtrj0).2.1 1 (some 5),
   (truncate_trajectory_cases qtrj0).2.2.2 1 (by decide) (by decide)⟩

/-- C6: `predictive_contexts` yields `n - 1` contexts; the context at list
position `i` is split point `i + 1`, its observed part is
`truncate_trajectory trj num_obs=(i+1)` and its held-out part is the
remaining suffix; a single-observation trajectory yields no contexts. -/
theorem predictive_contexts_spec (trj : Trajectory α) :
    (predictive_contexts trj).length = trj.t.length - 1 ∧
    (∀ i : ℕ, i + 1 < trj.t.length →
      ∃ obs, truncate_trajectory trj (some (i + 1)) none = Except.ok obs ∧
        (predictive_contexts trj).getD i (trj, [], []) =
          (obs, trj.t.drop (i + 1), trj.y.drop (i + 1))) ∧
    (trj.t.length = 1 → predictive_contexts trj = []) := by
  have hrepr : predictive_contexts trj =
      (List.range' 1 (trj.t.length - 1)).map (fun num_obs =>
        ({ trj with t := trj.t.take num_obs, y := trj.y.take num_obs },
          trj.t.drop num_obs, trj.y.drop num_obs)) := by
    simp only [predictive_contexts, truncate_trajectory]
    exact congrFun (List.filterMap_eq_map _) _
  have hlen : (predictive_contexts trj).length = trj.t.length - 1 := by
    rw [hrepr, List.length_map, List.length_range']
  refine ⟨hlen, fun i hi => ?_, fun h1 => ?_⟩
  · refine ⟨{ trj with t := trj.t.take (i + 1), y := trj.y.take (i + 1) }, rfl, ?_⟩
    rw [hrepr]
    have hi' : i < (List.range' 1 (trj.t.length - 1)).length := by
      rw [List.length_range']; omega
    have hi'' : i < ((List.range' 1 (trj.t.length - 1)).map (fun num_obs =>
        ({ trj with t := trj.t.take num_obs, y := trj.y.take num_obs },
          trj.t.drop num_obs, trj.y.drop num_obs))).length := by
      rw [List.length_map]; exact hi'
    have harg : (List.range' 1 (trj.t.length - 1))[i] = i + 1 := by
      rw [List.getElem_range']; ring
    rw [List.getD_eq_getElem _ _ hi'', List.getElem_map, harg]
  · rw [hrepr, h1]
    simp

/-- Witness for the C6 theorem on a concrete rational trajectory. -/
theorem predictive_contexts_spec_witness :
    (predictive_contexts qtrj1).length = qtrj1.t.length - 1 ∧
    (∃ obs, truncate_trajectory qtrj1 (some (0 + 1)) none = Except.ok obs ∧
      (predictive_contexts qtrj1).getD 0 (qtrj1, [], []) =
        (obs, qtrj1.t.drop (0 + 1), qtrj1.y.drop (0 + 1))) :=
  ⟨(predictive_contexts_spec qtrj1).1,
   (predictive_contexts_spec qtrj1).2.1 0 (by decide)⟩

/-- Helper: a successful `mapM` over `Except` maps members to members. -/
theorem mapM_except_mem {β γ : Type} (f : β → Except String γ) :
    ∀ (l : List β) (out : List γ), l.mapM f = Except.ok out →
      ∀ b ∈ out, ∃ a ∈ l, f a = Except.ok b := by
  intro l
  induction l with
  | nil =>
    intro out hout b hb
    simp only [List.mapM_nil, pure, Except.pure] at hout
    cases hout
    simp at hb
  | cons a l ih =>
    intro out hout b hb
    rw [List.mapM_cons] at hout
    cases hfa : f a with
    | error e => rw [hfa] at hout; simp [Bind.bind, Except.bind] at hout
    | ok c =>
      rw [hfa] at hout
      simp only [Bind.bind, Except.bind] at hout
      cases hrest : l.mapM f with
      | error e => rw [hrest] at hout; simp [Except.bind] at hout
      | ok cs =>
        rw [hrest] at hout
        simp only [pure, Except.pure, Except.ok.injEq] at hout
        subst hout
        rcases List.mem_cons.mp hb with h | h
        · exact ⟨a, List.mem_cons_self a l, h ▸ hfa⟩
        · rcases ih cs hrest b h with ⟨a', ha', hfa'⟩
          exact ⟨a', List.mem_cons_of_mem a ha', hfa'⟩

/-- Helper: truncation outputs of valid trajectories are valid. -/
theorem truncate_preserves_valid (trj : Trajectory α) (n : Option ℕ) (c : Option α)
    (out : Trajectory α) (hv : trj.valid)
    (h : truncate_trajectory trj n c = Except.ok out) : out.valid := by
  obtain ⟨hlen, hsort⟩ := hv
  cases n with
  | some k =>
    simp only [truncate_trajectory, Except.ok.injEq] at h
    subst h
    constructor
    · simp [List.length_take, hlen]
    · exact List.Pairwise.sublist (List.take_sublist k trj.t) hsort
  | none =>
    cases c with
    | some ct =>
      simp only [truncate_trajectory, Except.ok.injEq] at h
      subst h
      constructor
      · exact length_filter_mask (fun x => decide (x < ct)) trj.t trj.y hlen
      · exact List.Pairwise.sublist (List.filter_sublist trj.t) hsort
    | none => simp [truncate_trajectory] at h

/-- C8: every trajectory produced by `make_trajectories`, `add_covariates`,
`truncate_trajectory` or as the observed part of a predictive context has
`len(t) == len(y)` with `t` sorted ascending: `make_trajectories` sorts at
construction and every later transform preserves the invariant. -/
theorem trajectory_invariants :
    (∀ rows : List (DataRow α), ∀ trj ∈ make_trajectories rows, trj.valid) ∧
    (∀ (trjs : List (Trajectory α)) (cov_rows : List (ℕ × List α))
        (out : List (Trajectory α)), (∀ trj ∈ trjs, trj.valid) →
      add_covariates trjs cov_rows = Except.ok out → ∀ trj ∈ out, trj.valid) ∧
    (∀ (trj : Trajectory α) (n : Option ℕ) (c : Option α) (out : Trajectory α),
      trj.valid → truncate_trajectory trj n c = Except.ok out → out.valid) ∧
    (∀ trj : Trajectory α, trj.valid →
      ∀ ctx ∈ predictive_contexts trj, ctx.1.valid) := by
  refine ⟨?_, ?_, truncate_preserves_valid, ?_⟩
  · intro rows trj htrj
    rw [make_trajectories, List.mem_map] at htrj
    obtain ⟨k, _, hk⟩ := htrj
    subst hk
    constructor
    · simp
    · have hsorted := @List.sorted_mergeSort (α × α)
        (fun a b => decide (a.1 ≤ b.1))
        (fun a b c hab hbc => by
          simp only [decide_eq_true_eq] at hab hbc ⊢
          exact le_trans hab hbc)
        (fun a b => by
          simp only [Bool.or_eq_true, decide_eq_true_eq]
          exact le_total a.1 b.1)
        ((rows.filter (fun r => decide (r.key = k))).map (fun r => (r.time, r.marker)))
      have : List.Pairwise (fun a b : α × α => a.1 ≤ b.1)
          (((rows.filter (fun r => decide (r.key = k))).map
            (fun r => (r.time, r.marker))).mergeSort (fun a b => decide (a.1 ≤ b.1))) :=
        hsorted.imp (fun h => of_decide_eq_true h)
      exact List.pairwise_map.mpr this
  · intro trjs cov_rows out hval hout trj htrj
    simp only [add_covariates] at hout
    obtain ⟨a, ha, hfa⟩ := mapM_except_mem _ trjs out hout trj htrj
    cases hl : ((cov_rows.foldl (fun m p => odInsert m p.1 p.2) []).lookup a.key) with
    | some v =>
      rw [hl] at hfa
      simp only [Except.ok.injEq] at hfa
      subst hfa
      exact hval a ha
    | none => rw [hl] at hfa; cases hfa
  · intro trj hv ctx hctx
    simp only [predictive_contexts, List.mem_filterMap] at hctx
    obtain ⟨num_obs, _, hf⟩ := hctx
    cases htr : truncate_trajectory trj (some num_obs) none with
    | ok obs =>
      rw [htr] at hf
      simp only [Option.some.injEq] at hf
      have : ctx.1 = obs := by rw [← hf]
      rw [this]
      exact truncate_preserves_valid trj (some num_obs) none obs hv htr
    | error e => rw [htr] at hf; cases hf

/-- Witness for the C8 theorem on concrete rational data. -/
theorem trajectory_invariants_witness :
    (Trajectory.valid { key := 0, t := [1, 2], y := [4, 5], covariates := [(1 : ℚ)] }) ∧
    (Trajectory.valid { qtrj0 with t := qtrj0.t.take 1, y := qtrj0.y.take 1 }) :=
  ⟨(trajectory_invariants (α := ℚ)).1 qrows0 _ (by
      have h : make_trajectories qrows0 =
          [{ key := 0, t := [1, 2], y := [4, 5], covariates := [(1 : ℚ)] }] := by
        simp [make_trajectories, qrows0, List.mergeSort, List.dedup, List.pwFilter]
      rw [h]
      exact List.mem_singleton.mpr rfl),
   (trajectory_invariants (α := ℚ)).2.2.1 qtrj0 (some 1) none _ (by decide) rfl⟩

end TrajectoryTheorems

/-- Length of `posterior` is always the number of subtypes. -/
theorem posterior_length (M : SubtypeMixture) (L : NumLib) (trj : Trajectory ℝ) :
    (M.posterior L trj).length = M.nsubtypes := by
  simp [SubtypeMixture.posterior]

/-- C1: for every model state (freshly initialized or fitted) and every
trajectory, `posterior` returns a vector of length `nsubtypes` whose entries
are nonnegative and sum to 1 (exactly, in the real-number model of floating
point), obtained by normalising the per-subtype log-likelihoods through
log-sum-exp and exponentiating. -/
theorem posterior_is_distribution (M : SubtypeMixture) (L : NumLib)
    (trj : Trajectory ℝ) (hK : 0 < M.nsubtypes) :
    (M.posterior L trj).length = M.nsubtypes ∧
    (∀ q ∈ M.posterior L trj, 0 ≤ q) ∧
    (M.posterior L trj).sum = 1 := by
  have hpost : M.posterior L trj =
      ((List.range M.nsubtypes).map (fun z => M.loglik L trj z)).map
        (fun l => Real.exp (l - Real.log
          ((((List.range M.nsubtypes).map (fun z => M.loglik L trj z)).map
            Real.exp).sum))) := rfl
  set xs := (List.range M.nsubtypes).map (fun z => M.loglik L trj z) with hxs
  have hxslen : xs.length = M.nsubtypes := by
    rw [hxs, List.length_map, List.length_range]
  have hne : xs ≠ [] := by
    intro h
    rw [h] at hxslen
    simp only [List.length_nil] at hxslen
    omega
  have hS : 0 < (xs.map Real.exp).sum := by
    apply List.sum_pos
    · intro x hx
      obtain ⟨l, _, rfl⟩ := List.mem_map.mp hx
      exact Real.exp_pos l
    · simpa using hne
  refine ⟨?_, ?_, ?_⟩
  · rw [hpost, List.length_map, hxslen]
  · intro q hq
    rw [hpost] at hq
    obtain ⟨l, _, rfl⟩ := List.mem_map.mp hq
    exact le_of_lt (Real.exp_pos _)
  · rw [hpost]
    have hfun : (fun l => Real.exp (l - Real.log ((xs.map Real.exp).sum))) =
        fun l => Real.exp l * ((xs.map Real.exp).sum)⁻¹ := by
      funext l
      rw [Real.exp_sub, Real.exp_log hS, div_eq_mul_inv]
    rw [hfun, List.sum_map_mul_right, mul_inv_cancel₀ (ne_of_gt hS)]

/-- Witness for the C1 theorem on a concrete one-subtype model. -/
theorem posterior_is_distribution_witness :
    (model0.posterior numlib0 rtrj0).length = model0.nsubtypes ∧
    (∀ q ∈ model0.posterior numlib0 rtrj0, 0 ≤ q) ∧
    (model0.posterior numlib0 rtrj0).sum = 1 :=
  posterior_is_distribution model0 numlib0 rtrj0 (by norm_num [model0])

/-- C3: `loglik` is the sum of the log of the classifier's predicted
probability of class `z` for the trajectory's covariates and the
multivariate-normal log-density of `y` with mean `X·coef[z]` and covariance
`C`; supplied `X` and `C` are reused unchanged, and when not supplied they
are computed from the basis and covariance evaluators at the trajectory's
time points. -/
theorem loglik_spec (M : SubtypeMixture) (L : NumLib) (trj : Trajectory ℝ) (z : ℕ) :
    (∀ X C : RMat, M.loglik L trj z (some X) (some C) =
      Real.log ((M.subtype_marginal.predictF M.subtype_marginal.params
          trj.covariates).getD z 0) +
        L.mvnLogpdf trj.y (matVec X (M.coef.getD z [])) C) ∧
    M.loglik L trj z none none =
      M.loglik L trj z (some (M.basis.eval trj.t)) (some (M.cov.eval1 trj.t)) :=
  ⟨fun X C => rfl, rfl⟩

/-- getD of a scalar-multiplied vector. -/
theorem smulV_getD (w : ℝ) (v : RVec) (j : ℕ) :
    (smulV w v).getD j 0 = w * v.getD j 0 := by
  by_cases hj : j < v.length
  · have h1 : j < (smulV w v).length := by simpa [smulV] using hj
    rw [List.getD_eq_getElem _ _ h1, List.getD_eq_getElem _ _ hj]
    simp [smulV]
  · have h1 : (smulV w v).length ≤ j := by simpa [smulV] using not_lt.mp hj
    rw [List.getD_eq_default _ _ h1, List.getD_eq_default _ _ (not_lt.mp hj), mul_zero]

/-- getD of an elementwise sum of vectors of equal length. -/
theorem vecAdd_getD (u v : RVec) (h : u.length = v.length) (j : ℕ) :
    (vecAdd u v).getD j 0 = u.getD j 0 + v.getD j 0 := by
  by_cases hj : j < u.length
  · have h1 : j < (vecAdd u v).length := by
      simp only [vecAdd, List.length_zipWith]; omega
    have h2 : j < v.length := by omega
    rw [List.getD_eq_getElem _ _ h1, List.getD_eq_getElem _ _ hj,
      List.getD_eq_getElem _ _ h2]
    simp [vecAdd]
  · have h1 : (vecAdd u v).length ≤ j := by
      simp only [vecAdd, List.length_zipWith]; omega
    rw [List.getD_eq_default _ _ h1, List.getD_eq_default _ _ (not_lt.mp hj),
      List.getD_eq_default _ _ (by omega : v.length ≤ j), add_zero]

/-- Length of an elementwise vector sum. -/
theorem vecAdd_length (u v : RVec) : (vecAdd u v).length = min u.length v.length :=
  List.length_zipWith _ _ _

/-- Length of a matrix–vector product. -/
theorem matVec_length (A : RMat) (v : RVec) : (matVec A v).length = A.length :=
  List.length_map _ _

/-- The accumulation loop of `predict`, characterised pointwise: folding
`y_new += w * term(z)` over weighted indices equals the starting vector plus
the weighted sum of the terms. -/
theorem foldl_accum_getD (terms : ℕ → RVec) (n : ℕ) :
    ∀ (l : List (ℕ × ℝ)) (acc : RVec), acc.length = n →
      (∀ p ∈ l, (terms p.1).length = n) →
      (l.foldl (fun a p => vecAdd a (smulV p.2 (terms p.1))) acc).length = n ∧
      ∀ j, (l.foldl (fun a p => vecAdd a (smulV p.2 (terms p.1))) acc).getD j 0 =
        acc.getD j 0 + (l.map (fun p => p.2 * (terms p.1).getD j 0)).sum := by
  intro l
  induction l with
  | nil => intro acc hacc _; exact ⟨hacc, fun j => by simp⟩
  | cons p l ih =>
    intro acc hacc hterm
    have hplen : (terms p.1).length = n := hterm p (List.mem_cons_self p l)
    have hsmul : (smulV p.2 (terms p.1)).length = n := by simp [smulV, hplen]
    have hnew : (vecAdd acc (smulV p.2 (terms p.1))).length = n := by
      rw [vecAdd_length, hacc, hsmul, min_self]
    have hrest := ih (vecAdd acc (smulV p.2 (terms p.1))) hnew
      (fun q hq => hterm q (List.mem_cons_of_mem p hq))
    refine ⟨hrest.1, fun j => ?_⟩
    rw [List.foldl_cons, hrest.2 j,
      vecAdd_getD acc (smulV p.2 (terms p.1)) (by rw [hacc, hsmul]),
      smulV_getD, List.map_cons, List.sum_cons, add_assoc]

/-- Mapping over an enumerated list is mapping over its index range. -/
theorem enum_map_eq_range_map {γ : Type} (v : List ℝ) (f : ℕ → ℝ → γ) :
    v.enum.map (fun p => f p.1 p.2) =
      (List.range v.length).map (fun i => f i (v.getD i 0)) := by
  apply List.ext_getElem
  · simp [List.enum_length]
  · intro i h1 h2
    have hi : i < v.length := by simpa using h2
    rw [List.getElem_map, List.getElem_map, List.getElem_enum,
      List.getElem_range, List.getD_eq_getElem _ _ hi]

/-- C4: `predict` equals the posterior-weighted sum over the subtypes of the
Gaussian-process conditional mean `m1 + C1 · C2⁻¹ (y_obs − m2)` as written in
the spec, provided the external basis and covariance evaluators honour their
shape contract at `t_new`. -/
theorem predict_eq_spec (M : SubtypeMixture) (L : NumLib) (t_new : RVec)
    (trj : Trajectory ℝ) (hB : (M.basis.eval t_new).length = t_new.length)
    (hC : (M.cov.eval2 t_new trj.t).length = t_new.length) :
    M.predict L t_new trj = predict_spec M L t_new trj := by
  set terms : ℕ → RVec := fun z =>
    vecAdd (matVec (M.basis.eval t_new) (M.coef.getD z []))
      (matVec (M.cov.eval2 t_new trj.t)
        (L.solveV (M.cov.eval1 trj.t)
          (vecSub trj.y (matVec (M.basis.eval trj.t) (M.coef.getD z []))))) with hterms
  have hpredict : M.predict L t_new trj =
      (M.posterior L trj).enum.foldl
        (fun a p => vecAdd a (smulV p.2 (terms p.1))) (t_new.map (fun _ => 0)) := rfl
  have htermlen : ∀ z : ℕ, (terms z).length = t_new.length := by
    intro z
    rw [hterms]
    simp only [vecAdd_length, matVec_length, hB, hC, min_self]
  have hy0 : (t_new.map (fun _ => (0 : ℝ))).length = t_new.length := List.length_map _ _
  have hfold := foldl_accum_getD terms t_new.length (M.posterior L trj).enum
    (t_new.map (fun _ => 0)) hy0 (fun p _ => htermlen p.1)
  have hy0D : ∀ j, (t_new.map (fun _ => (0 : ℝ))).getD j 0 = 0 := by
    intro j
    by_cases hj : j < t_new.length
    · rw [List.getD_eq_getElem _ _ (by simpa using hj), List.getElem_map]
    · exact List.getD_eq_default _ _ (by simpa using not_lt.mp hj)
  apply List.ext_getElem
  · rw [hpredict, hfold.1, predict_spec, List.length_map, List.length_range]
  · intro j hj1 hj2
    have hjn : j < t_new.length := by rw [hpredict] at hj1; rwa [hfold.1] at hj1
    rw [← List.getD_eq_getElem _ 0 hj1, ← List.getD_eq_getElem _ 0 hj2, hpredict,
      hfold.2 j, hy0D j, zero_add]
    have hrhs : (predict_spec M L t_new trj).getD j 0 =
        ((List.range M.nsubtypes).map (fun z =>
          (M.posterior L trj).getD z 0 *
            ((matVec (M.basis.eval t_new) (M.coef.getD z [])).getD j 0 +
              (matVec (M.cov.eval2 t_new trj.t)
                (L.solveV (M.cov.eval1 trj.t)
                  (vecSub trj.y
                    (matVec (M.basis.eval trj.t) (M.coef.getD z []))))).getD j 0))).sum := by
      rw [predict_spec,
        List.getD_eq_getElem _ _ (by simpa [List.length_map, List.length_range] using hjn),
        List.getElem_map, List.getElem_range]
    rw [hrhs, enum_map_eq_range_map (M.posterior L trj)
      (fun z w => w * (terms z).getD j 0), posterior_length]
    refine congrArg List.sum (List.map_congr_left ?_)
    intro z _
    have hlen2 : (matVec (M.basis.eval t_new) (M.coef.getD z [])).length =
        (matVec (M.cov.eval2 t_new trj.t)
          (L.solveV (M.cov.eval1 trj.t)
            (vecSub trj.y (matVec (M.basis.eval trj.t) (M.coef.getD z []))))).length := by
      rw [matVec_length, matVec_length, hB, hC]
    rw [hterms]
    exact congrArg (fun x => (M.posterior L trj).getD z 0 * x) (vecAdd_getD _ _ hlen2 j)

/-- Witness for the C4 theorem on a concrete model. -/
theorem predict_eq_spec_witness :
    model0.predict numlib0 [0] rtrj0 = predict_spec model0 numlib0 [0] rtrj0 :=
  predict_eq_spec model0 numlib0 [0] rtrj0 (by simp [model0, basis0])
    (by simp [model0, cov0])

/-- Bind of a successful `Except` computation. -/
theorem exc_bind_ok {β γ : Type} (a : β) (f : β → Except String γ) :
    (Except.ok a >>= f) = f a := rfl

/-- Bind of a failed `Except` computation. -/
theorem exc_bind_err {β γ : Type} (e : String) (f : β → Except String γ) :
    ((Except.error e : Except String β) >>= f) = Except.error e := rfl

/-- Map over a successful `Except` computation. -/
theorem exc_map_ok {β γ : Type} (g : β → γ) (a : β) :
    (Except.ok a : Except String β).map g = Except.ok (g a) := rfl

/-- Map over a failed `Except` computation. -/
theorem exc_map_err {β γ : Type} (g : β → γ) (e : String) :
    (Except.error e : Except String β).map g = Except.error e := rfl

/-- Successful checked indexing. -/
theorem getE_eq_ok {β : Type} (xs : List β) (i : ℕ) (h : i < xs.length) :
    getE xs i = Except.ok xs[i] := dif_pos h

/-- Failed checked indexing. -/
theorem getE_eq_err {β : Type} (xs : List β) (i : ℕ) (h : xs.length ≤ i) :
    getE xs i = Except.error "index out of range" := dif_neg (not_lt.mpr h)

/-- Successful checked update. -/
theorem setE_eq_ok {β : Type} (xs : List β) (i : ℕ) (v : β) (h : i < xs.length) :
    setE xs i v = Except.ok (xs.set i v) := if_pos h

/-- Successful checked dictionary lookup. -/
theorem lookupE_eq_ok {β : Type} (m : List (ℕ × β)) (k : ℕ) (v : β)
    (h : m.lookup k = some v) : lookupE m k = Except.ok v := by
  simp [lookupE, h]

/-- getD after a `set` at an in-range index. -/
theorem getD_set {β : Type} (l : List β) (m : ℕ) (a d : β) (n : ℕ) (h : n < l.length) :
    (l.set m a).getD n d = if m = n then a else l.getD n d := by
  rw [List.getD_eq_getElem _ _ (by simpa using h), List.getElem_set,
    List.getD_eq_getElem _ _ h]

/-- Lookup skips a prefix in which the key does not occur. -/
theorem lookup_append_of_none {β : Type} (l1 l2 : List (ℕ × β)) (k : ℕ)
    (h : l1.lookup k = none) : (l1 ++ l2).lookup k = l2.lookup k := by
  induction l1 with
  | nil => simp
  | cons p l1 ih =>
    rw [List.cons_append]
    rcases p with ⟨a, b⟩
    by_cases hk : k = a
    · subst hk
      simp [List.lookup] at h
    · simp only [List.lookup, beq_eq_false_iff_ne.mpr hk] at h ⊢
      exact ih h

/-- Inserting a fresh key with `odInsert` appends the binding. -/
theorem odInsert_of_none {β : Type} (m : List (ℕ × β)) (k : ℕ) (v : β)
    (h : m.lookup k = none) : odInsert m k v = m ++ [(k, v)] := by
  simp [odInsert, h]

/-- Folding `odInsert` over trajectories with distinct fresh keys appends the
corresponding bindings in order. -/
theorem foldl_odInsert_eq_append {β : Type} (f : Trajectory ℝ → β) :
    ∀ (ts : List (Trajectory ℝ)) (acc : List (ℕ × β)),
      (ts.map (·.key)).Nodup →
      (∀ t ∈ ts, acc.lookup t.key = none) →
      ts.foldl (fun m trj => odInsert m trj.key (f trj)) acc =
        acc ++ ts.map (fun t => (t.key, f t)) := by
  intro ts
  induction ts with
  | nil => intro acc _ _; simp
  | cons t ts ih =>
    intro acc hnd hacc
    rw [List.foldl_cons, odInsert_of_none _ _ _ (hacc t (List.mem_cons_self t ts))]
    have hnd' : (ts.map (·.key)).Nodup := (List.nodup_cons.mp (by simpa using hnd)).2
    have hhead : t.key ∉ ts.map (·.key) := (List.nodup_cons.mp (by simpa using hnd)).1
    have hacc' : ∀ u ∈ ts, (acc ++ [(t.key, f t)]).lookup u.key = none := by
      intro u hu
      rw [lookup_append_of_none _ _ _ (hacc u (List.mem_cons_of_mem t hu))]
      have hne : u.key ≠ t.key := by
        intro hctr
        exact hhead (hctr ▸ List.mem_map_of_mem (·.key) hu)
      simp [List.lookup, beq_eq_false_iff_ne.mpr hne]
    rw [ih (acc ++ [(t.key, f t)]) hnd' hacc', List.append_assoc]
    rfl

/-- Lookup of a member's key in the association list of a keyed map. -/
theorem lookup_map_self {β : Type} (f : Trajectory ℝ → β) :
    ∀ ts : List (Trajectory ℝ), (ts.map (·.key)).Nodup →
      ∀ t ∈ ts, (ts.map (fun u => (u.key, f u))).lookup t.key = some (f t) := by
  intro ts
  induction ts with
  | nil => intro _ t ht; simp at ht
  | cons u ts ih =>
    intro hnd t ht
    have hnd' : (ts.map (·.key)).Nodup := (List.nodup_cons.mp (by simpa using hnd)).2
    have hhead : u.key ∉ ts.map (·.key) := (List.nodup_cons.mp (by simpa using hnd)).1
    rcases List.mem_cons.mp ht with h | h
    · subst h
      simp [List.lookup]
    · have hne : t.key ≠ u.key := by
        intro hctr
        exact hhead (hctr ▸ List.mem_map_of_mem (·.key) h)
      simp only [List.map_cons, List.lookup, beq_eq_false_iff_ne.mpr hne]
      exact ih hnd' t h

/-- With distinct keys, the cache built by `fit` maps each trajectory's key to
its cached statistics. -/
theorem lookup_buildCache (L : NumLib) (N : SubtypeMixture)
    (trajectories : List (Trajectory ℝ))
    (hkeys : (trajectories.map (·.key)).Nodup) :
    ∀ t ∈ trajectories,
      (buildCache L N trajectories).lookup t.key = some (traj_data L N t) := by
  intro t ht
  have h := foldl_odInsert_eq_append (traj_data L N) trajectories [] hkeys
    (fun _ _ => rfl)
  rw [buildCache, h, List.nil_append]
  exact lookup_map_self (traj_data L N) trajectories hkeys t ht

/-- Characterisation of the inner M-step loop
`for z, w in enumerate(qz[i]): cov_xx[z] += w*xx; cov_xy[z] += w*xy`:
it succeeds when the accumulators are long enough, preserves their lengths,
and adds the weighted statistics at each updated index. -/
theorem inner_fold_eval (xx : RMat) (xy : RVec) :
    ∀ (ws : List ℝ) (k : ℕ) (axx : List RMat) (axy : List RVec),
      k + ws.length ≤ axx.length → k + ws.length ≤ axy.length →
      ∃ axx' axy',
        (List.enumFrom k ws).foldlM
          (fun (acc2 : List RMat × List RVec) q => do
            let cxx ← getE acc2.1 q.1
            let cxy ← getE acc2.2 q.1
            let nxx ← setE acc2.1 q.1 (matAdd cxx (matSmul q.2 xx))
            let nxy ← setE acc2.2 q.1 (vecAdd cxy (smulV q.2 xy))
            pure (nxx, nxy)) (axx, axy) = Except.ok (axx', axy') ∧
        axx'.length = axx.length ∧ axy'.length = axy.length ∧
        (∀ z, z < axx.length →
          axx'.getD z [] = if k ≤ z ∧ z < k + ws.length then
            matAdd (axx.getD z []) (matSmul (ws.getD (z - k) 0) xx)
          else axx.getD z []) ∧
        (∀ z, z < axy.length →
          axy'.getD z [] = if k ≤ z ∧ z < k + ws.length then
            vecAdd (axy.getD z []) (smulV (ws.getD (z - k) 0) xy)
          else axy.getD z []) := by
  intro ws
  induction ws with
  | nil =>
    intro k axx axy _ _
    refine ⟨axx, axy, rfl, rfl, rfl, ?_, ?_⟩ <;>
      · intro z _
        rw [if_neg (show ¬(k ≤ z ∧ z < k + List.length ([] : List ℝ)) by
          simp only [List.length_nil]; omega)]
  | cons w ws ih =>
    intro k axx axy hxx hxy
    have hk1 : k < axx.length := by simp only [List.length_cons] at hxx; omega
    have hk2 : k < axy.length := by simp only [List.length_cons] at hxy; omega
    set axx1 := axx.set k (matAdd axx[k] (matSmul w xx)) with haxx1
    set axy1 := axy.set k (vecAdd axy[k] (smulV w xy)) with haxy1
    have hl1 : axx1.length = axx.length := List.length_set _ _ _
    have hl2 : axy1.length = axy.length := List.length_set _ _ _
    obtain ⟨axx', axy', hfold, hlx, hly, hgx, hgy⟩ := ih (k + 1) axx1 axy1
      (by rw [hl1]; simp only [List.length_cons] at hxx; omega)
      (by rw [hl2]; simp only [List.length_cons] at hxy; omega)
    refine ⟨axx', axy', ?_, by rw [hlx, hl1], by rw [hly, hl2], ?_, ?_⟩
    · rw [List.enumFrom_cons, List.foldlM_cons]
      simp only [getE_eq_ok axx k hk1, getE_eq_ok axy k hk2,
        setE_eq_ok axx k _ hk1, setE_eq_ok axy k _ hk2, exc_bind_ok]
      exact hfold
    · intro z hz
      rw [hgx z (by omega)]
      simp only [List.length_cons]
      by_cases hzk : z = k
      · subst hzk
        rw [if_neg (show ¬(z + 1 ≤ z ∧ z < z + 1 + ws.length) by omega),
          if_pos (show z ≤ z ∧ z < z + (ws.length + 1) by omega),
          haxx1, getD_set _ _ _ _ _ hz, if_pos rfl, Nat.sub_self,
          List.getD_cons_zero, List.getD_eq_getElem _ _ hz]
      · by_cases hin : k + 1 ≤ z ∧ z < k + 1 + ws.length
        · rw [if_pos hin, if_pos (show k ≤ z ∧ z < k + (ws.length + 1) by omega),
            haxx1, getD_set _ _ _ _ _ hz, if_neg (fun h => hzk h.symm)]
          have hsub : z - k = (z - (k + 1)) + 1 := by omega
          rw [hsub, List.getD_cons_succ]
        · rw [if_neg hin, if_neg (show ¬(k ≤ z ∧ z < k + (ws.length + 1)) by omega),
            haxx1, getD_set _ _ _ _ _ hz, if_neg (fun h => hzk h.symm)]
    · intro z hz
      rw [hgy z (by omega)]
      simp only [List.length_cons]
      by_cases hzk : z = k
      · subst hzk
        rw [if_neg (show ¬(z + 1 ≤ z ∧ z < z + 1 + ws.length) by omega),
          if_pos (show z ≤ z ∧ z < z + (ws.length + 1) by omega),
          haxy1, getD_set _ _ _ _ _ hz, if_pos rfl, Nat.sub_self,
          List.getD_cons_zero, List.getD_eq_getElem _ _ hz]
      · by_cases hin : k + 1 ≤ z ∧ z < k + 1 + ws.length
        · rw [if_pos hin, if_pos (show k ≤ z ∧ z < k + (ws.length + 1) by omega),
            haxy1, getD_set _ _ _ _ _ hz, if_neg (fun h => hzk h.symm)]
          have hsub : z - k = (z - (k + 1)) + 1 := by omega
          rw [hsub, List.getD_cons_succ]
        · rw [if_neg hin, if_neg (show ¬(k ≤ z ∧ z < k + (ws.length + 1)) by omega),
            haxy1, getD_set _ _ _ _ _ hz, if_neg (fun h => hzk h.symm)]

/-- Characterisation of the outer M-step loop over the subjects: starting at
subject `j`, it succeeds under the length and cache hypotheses and produces,
at each subtype index, the `qz`-weighted left fold of the cached statistics
over the remaining subjects. -/
theorem outer_fold_eval (L : NumLib) (N : SubtypeMixture)
    (cache : List (ℕ × TrajectoryData)) (qz : RMat) (K : ℕ)
    (hrow : ∀ r ∈ qz, r.length = K) :
    ∀ (ts : List (Trajectory ℝ)) (j : ℕ) (axx : List RMat) (axy : List RVec),
      (∀ t ∈ ts, cache.lookup t.key = some (traj_data L N t)) →
      j + ts.length ≤ qz.length →
      axx.length = K → axy.length = K →
      ∃ axx' axy',
        (List.enumFrom j ts).foldlM
          (fun (acc : List RMat × List RVec) p => do
            let qzi ← getE qz p.1
            let td ← lookupE cache p.2.key
            qzi.enum.foldlM
              (fun (acc2 : List RMat × List RVec) q => do
                let cxx ← getE acc2.1 q.1
                let cxy ← getE acc2.2 q.1
                let nxx ← setE acc2.1 q.1 (matAdd cxx (matSmul q.2 td.cov_xx))
                let nxy ← setE acc2.2 q.1 (vecAdd cxy (smulV q.2 td.cov_xy))
                pure (nxx, nxy)) acc) (axx, axy) = Except.ok (axx', axy') ∧
        axx'.length = K ∧ axy'.length = K ∧
        ∀ z, z < K →
          axx'.getD z [] = ((qz.drop j).zip ts).foldl
            (fun A p => matAdd A (matSmul (p.1.getD z 0) (traj_data L N p.2).cov_xx))
            (axx.getD z []) ∧
          axy'.getD z [] = ((qz.drop j).zip ts).foldl
            (fun b p => vecAdd b (smulV (p.1.getD z 0) (traj_data L N p.2).cov_xy))
            (axy.getD z []) := by
  intro ts
  induction ts with
  | nil =>
    intro j axx axy _ _ hx hy
    exact ⟨axx, axy, rfl, hx, hy, fun z _ => by simp⟩
  | cons t ts ih =>
    intro j axx axy hc hlen hx hy
    have hj : j < qz.length := by simp only [List.length_cons] at hlen; omega
    have hrowj : qz[j].length = K := hrow qz[j] (List.getElem_mem hj)
    obtain ⟨axx1, axy1, hifold, hl1, hl2, hgx, hgy⟩ :=
      inner_fold_eval (traj_data L N t).cov_xx (traj_data L N t).cov_xy qz[j] 0
        axx axy (by omega) (by omega)
    obtain ⟨axx', axy', hofold, hlx, hly, hg⟩ := ih (j + 1) axx1 axy1
      (fun u hu => hc u (List.mem_cons_of_mem t hu))
      (by simp only [List.length_cons] at hlen; omega)
      (by rw [hl1, hx]) (by rw [hl2, hy])
    refine ⟨axx', axy', ?_, hlx, hly, fun z hz => ⟨?_, ?_⟩⟩
    · rw [List.enumFrom_cons, List.foldlM_cons]
      simp only [getE_eq_ok qz j hj,
        lookupE_eq_ok cache t.key _ (hc t (List.mem_cons_self t ts)), exc_bind_ok]
      rw [show (qz[j].enum : List (ℕ × ℝ)) = List.enumFrom 0 qz[j] from rfl, hifold,
        exc_bind_ok]
      exact hofold
    · rw [(hg z hz).1, List.drop_eq_getElem_cons hj, List.zip_cons_cons,
        List.foldl_cons, hgx z (by omega)]
      rw [if_pos (by omega), Nat.sub_zero]
    · rw [(hg z hz).2, List.drop_eq_getElem_cons hj, List.zip_cons_cons,
        List.foldl_cons, hgy z (by omega)]
      rw [if_pos (by omega), Nat.sub_zero]

/-- Characterisation of `mStepSums`: under the cache and shape hypotheses it
succeeds, and at each subtype `z` below `K` the accumulated statistics are
the spec's `qz`-weighted sums over the subjects. -/
theorem mStepSums_eval (L : NumLib) (N : SubtypeMixture)
    (cache : List (ℕ × TrajectoryData)) (trajectories : List (Trajectory ℝ))
    (qz : RMat) (K df : ℕ)
    (hc : ∀ t ∈ trajectories, cache.lookup t.key = some (traj_data L N t))
    (hlen : trajectories.length ≤ qz.length)
    (hrow : ∀ r ∈ qz, r.length = K) :
    ∃ axx' axy',
      mStepSums cache trajectories qz K df = Except.ok (axx', axy') ∧
      axx'.length = K ∧ axy'.length = K ∧
      ∀ z, z < K →
        axx'.getD z [] = mstep_xx_spec L N trajectories qz df z ∧
        axy'.getD z [] = mstep_xy_spec L N trajectories qz df z := by
  obtain ⟨axx', axy', hfold, hlx, hly, hg⟩ := outer_fold_eval L N cache qz K hrow
    trajectories 0 (List.replicate K (zeroMat df df)) (List.replicate K (zeroVec df))
    hc (by omega) (List.length_replicate K _) (List.length_replicate K _)
  refine ⟨axx', axy', ?_, hlx, hly, fun z hz => ?_⟩
  · rw [mStepSums, show (trajectories.enum : List (ℕ × Trajectory ℝ)) =
      List.enumFrom 0 trajectories from rfl]
    exact hfold
  · obtain ⟨h1, h2⟩ := hg z hz
    rw [List.drop_zero] at h1 h2
    rw [h1, h2, List.getD_eq_getElem _ _ (by rw [List.length_replicate]; exact hz),
      List.getElem_replicate, List.getD_eq_getElem _ _ (by rw [List.length_replicate]; exact hz),
      List.getElem_replicate]
    exact ⟨rfl, rfl⟩

/-- Characterisation of the coefficient solve loop: with accumulators of
length `K` it succeeds and returns the solver applied row by row. -/
theorem coefSolve_eval (L : NumLib) (K : ℕ) (axx : List RMat) (axy : List RVec)
    (hx : axx.length = K) (hy : axy.length = K) :
    coefSolve L K axx axy = Except.ok
      ((List.range K).map (fun z => L.solveV (axx.getD z []) (axy.getD z []))) := by
  rw [coefSolve]
  have hgen : ∀ l : List ℕ, (∀ z ∈ l, z < K) →
      l.mapM (fun z => (do
        let A ← getE axx z
        let b ← getE axy z
        pure (L.solveV A b) : Except String RVec)) = Except.ok
        (l.map (fun z => L.solveV (axx.getD z []) (axy.getD z []))) := by
    intro l
    induction l with
    | nil => intro _; rfl
    | cons z l ih =>
      intro hmem
      have hzK : z < K := hmem z (List.mem_cons_self z l)
      rw [List.mapM_cons]
      simp only [getE_eq_ok axx z (show z < axx.length by omega),
        getE_eq_ok axy z (show z < axy.length by omega), exc_bind_ok, pure_bind,
        ih (fun u hu => hmem u (List.mem_cons_of_mem z hu))]
      rw [List.map_cons, List.getD_eq_getElem _ _ (show z < axx.length by omega),
        List.getD_eq_getElem _ _ (show z < axy.length by omega)]
      rfl
  exact hgen (List.range K) (fun z hzm => List.mem_range.mp hzm)

/-- Calling `loglik` with both matrices supplied never consults the basis
or covariance evaluators. -/
theorem loglik_some (M : SubtypeMixture) (L : NumLib) (trj : Trajectory ℝ) (z : ℕ)
    (X C : RMat) :
    M.loglik L trj z (some X) (some C) =
      Real.log ((M.subtype_marginal.predictF M.subtype_marginal.params
        trj.covariates).getD z 0) +
      L.mvnLogpdf trj.y (matVec X (M.coef.getD z [])) C := rfl

/-- The E-step depends on the model only through `nsubtypes`, the classifier
and the coefficients. -/
theorem eStep_congr (L : NumLib) (cache : List (ℕ × TrajectoryData))
    (trajectories : List (Trajectory ℝ)) (M₁ M₂ : SubtypeMixture) (iteration : ℕ)
    (qz : RMat) (logl : List EReal)
    (hn : M₁.nsubtypes = M₂.nsubtypes)
    (hs : M₁.subtype_marginal = M₂.subtype_marginal)
    (hcoef : M₁.coef = M₂.coef) :
    eStep L cache trajectories M₁ iteration qz logl =
      eStep L cache trajectories M₂ iteration qz logl := by
  rw [eStep, eStep]
  congr 1
  funext acc p
  have hll : ∀ (X C : RMat) (z : ℕ),
      M₁.loglik L p.2 z (some X) (some C) = M₂.loglik L p.2 z (some X) (some C) := by
    intro X C z
    rw [loglik_some, loglik_some, hs, hcoef]
  cases hlk : lookupE cache p.2.key with
  | error e => rfl
  | ok td =>
    simp only [exc_bind_ok]
    rw [hn]
    have hmap : (List.range M₂.nsubtypes).map
          (fun z => M₁.loglik L p.2 z (some td.X) (some td.C)) =
        (List.range M₂.nsubtypes).map
          (fun z => M₂.loglik L p.2 z (some td.X) (some td.C)) :=
      List.map_congr_left (fun z _ => hll td.X td.C z)
    rw [hmap]

/-- Normal form of one loop pass: the M-step sums, the coefficient solve, the
E-step with the updated model, and the assembled new state. -/
theorem stepOnce_eq (L : NumLib) (trajectories : List (Trajectory ℝ))
    (cache : List (ℕ × TrajectoryData)) (covariates : RMat) (st : EMState) :
    stepOnce L trajectories cache covariates st =
      (mStepSums cache trajectories st.qz st.model.nsubtypes st.model.basis.df) >>=
        (fun sums => (coefSolve L st.model.nsubtypes sums.1 sums.2) >>=
          (fun coef' =>
            (eStep L cache trajectories (updatedModel st.model covariates st.qz coef')
              (st.iteration + 1) st.qz st.logl) >>=
              (fun es => pure { model := updatedModel st.model covariates st.qz coef',
                                qz := es.1, logl := es.2,
                                iteration := st.iteration + 1 }))) := rfl

/-- C5: the per-trajectory statistics are cached before the EM loop and the
loop never recomputes them.  First, whenever one loop pass succeeds, the
coefficients it produces solve, for every subtype `z`, the linear system
whose matrix and right-hand side are the responsibilities-weighted sums of
the cached `cov_xx` and `cov_xy`.  Second, the loop body is completely
insensitive to the basis and covariance evaluator functions — replacing them
by arbitrary other functions, with the cache unchanged, changes nothing but
the stored evaluators, so the loop never consults them again. -/
theorem fit_cached_mstep :
    (∀ (L : NumLib) (N : SubtypeMixture) (trajectories : List (Trajectory ℝ))
        (covariates : RMat) (st st' : EMState),
      (trajectories.map (·.key)).Nodup →
      trajectories.length ≤ st.qz.length →
      (∀ r ∈ st.qz, r.length = st.model.nsubtypes) →
      stepOnce L trajectories (buildCache L N trajectories) covariates st =
        Except.ok st' →
      st'.model.coef = (List.range st.model.nsubtypes).map (fun z =>
        L.solveV (mstep_xx_spec L N trajectories st.qz st.model.basis.df z)
          (mstep_xy_spec L N trajectories st.qz st.model.basis.df z))) ∧
    (∀ (L : NumLib) (trajectories : List (Trajectory ℝ))
        (cache : List (ℕ × TrajectoryData)) (covariates : RMat) (st : EMState)
        (b : RVec → RMat) (c1 : RVec → RMat) (c2 : RVec → RVec → RMat),
      stepOnce L trajectories cache covariates (st.withEvals b c1 c2) =
        (stepOnce L trajectories cache covariates st).map
          (fun s => s.withEvals b c1 c2)) := by
  constructor
  · intro L N trajectories covariates st st' hkeys hlen hrow hstep
    obtain ⟨axx', axy', hms, hlx, hly, hg⟩ := mStepSums_eval L N
      (buildCache L N trajectories) trajectories st.qz st.model.nsubtypes
      st.model.basis.df (lookup_buildCache L N trajectories hkeys) hlen hrow
    rw [stepOnce_eq] at hstep
    rw [hms, exc_bind_ok] at hstep
    have hcs := coefSolve_eval L st.model.nsubtypes axx' axy' hlx hly
    rw [show ((axx', axy').1 : List RMat) = axx' from rfl,
      show ((axx', axy').2 : List RVec) = axy' from rfl, hcs, exc_bind_ok] at hstep
    have hcoef : st'.model.coef = (List.range st.model.nsubtypes).map (fun z =>
        L.solveV (axx'.getD z []) (axy'.getD z [])) := by
      cases hes : (eStep L (buildCache L N trajectories) trajectories
          (updatedModel st.model covariates st.qz
            ((List.range st.model.nsubtypes).map (fun z =>
              L.solveV (axx'.getD z []) (axy'.getD z []))))
          (st.iteration + 1) st.qz st.logl) with
      | error e =>
        rw [hes, exc_bind_err] at hstep
        cases hstep
      | ok pr =>
        rw [hes, exc_bind_ok] at hstep
        simp only [pure, Except.pure, Except.ok.injEq] at hstep
        rw [← hstep]
        rfl
    rw [hcoef]
    refine List.map_congr_left ?_
    intro z hzm
    have hz : z < st.model.nsubtypes := List.mem_range.mp hzm
    rw [(hg z hz).1, (hg z hz).2]
  · intro L trajectories cache covariates st b c1 c2
    rw [stepOnce_eq, stepOnce_eq]
    have h1 : (st.withEvals b c1 c2).model.nsubtypes = st.model.nsubtypes := rfl
    have h2 : (st.withEvals b c1 c2).model.basis.df = st.model.basis.df := rfl
    have h3 : (st.withEvals b c1 c2).qz = st.qz := rfl
    have h4 : (st.withEvals b c1 c2).logl = st.logl := rfl
    have h5 : (st.withEvals b c1 c2).iteration = st.iteration := rfl
    rw [h1, h2, h3, h4, h5]
    cases hms : mStepSums cache trajectories st.qz st.model.nsubtypes
        st.model.basis.df with
    | error e => rfl
    | ok pr =>
      cases pr with
      | mk axx axy =>
        simp only [exc_bind_ok]
        cases hcs : coefSolve L st.model.nsubtypes axx axy with
        | error e => rfl
        | ok coefV =>
          simp only [exc_bind_ok]
          have hupd : eStep L cache trajectories
              (updatedModel (st.withEvals b c1 c2).model covariates st.qz coefV)
              (st.iteration + 1) st.qz st.logl =
            eStep L cache trajectories
              (updatedModel st.model covariates st.qz coefV)
              (st.iteration + 1) st.qz st.logl :=
            eStep_congr _ _ _ _ _ _ _ _ rfl rfl rfl
          rw [hupd]
          cases hes : (eStep L cache trajectories
              (updatedModel st.model covariates st.qz coefV)
              (st.iteration + 1) st.qz st.logl) with
          | error e => rfl
          | ok pr2 =>
            cases pr2 with
            | mk q l => rfl

/-- The convergence test fails with an index error when the trace is too
short for the iteration counter. -/
theorem stopCheck_oob (max_iter : ℕ) (tol : ℝ) (st : EMState)
    (h : st.logl.length ≤ st.iteration) :
    stopCheck max_iter tol st = Except.error "index out of range" := by
  rw [stopCheck, getE_eq_err _ _ h, exc_bind_err]

/-- C9: on any dataset that survives `np.vstack` — the covariate rows stack,
which in particular requires at least one trajectory — `fit` always runs the
loop body before testing the stopping condition, and the trace only has
`max_iter + 1` slots while the first pass writes slot 1 — so `fit` with
`max_iter = 0` fails with an out-of-bounds trace access instead of returning
without iterating. -/
theorem fit_max_iter_zero (L : NumLib) (M : SubtypeMixture)
    (trajectories : List (Trajectory ℝ)) (qz0 : RMat) (tol : ℝ) (covs : RMat)
    (hvs : vstackE (trajectories.map (·.covariates)) = Except.ok covs)
    (hkeys : (trajectories.map (·.key)).Nodup)
    (hq : qz0.length = trajectories.length)
    (hrow : ∀ r ∈ qz0, r.length = M.nsubtypes) :
    M.fit L trajectories qz0 0 tol = Except.error "index out of range" := by
  have hfull : M.fitFull L trajectories qz0 0 tol =
      Except.error "index out of range" := by
    rw [SubtypeMixture.fitFull]
    rw [hvs, exc_bind_ok]
    have hlogl : setE (List.replicate (0 + 1) ((0 : ℝ) : EReal)) 0 ⊥ =
        Except.ok [⊥] := by
      rw [setE_eq_ok _ _ _ (by simp)]
      rfl
    rw [hlogl, exc_bind_ok]
    simp only [emLoop]
    have hso : stepOnce L trajectories (buildCache L M trajectories) covs
        { model := M, qz := qz0, logl := [⊥], iteration := 0 } =
        (mStepSums (buildCache L M trajectories) trajectories qz0 M.nsubtypes
          M.basis.df) >>= (fun sums =>
          (coefSolve L M.nsubtypes sums.1 sums.2) >>= (fun coef' =>
            (eStep L (buildCache L M trajectories) trajectories
              (updatedModel M covs qz0 coef')
              (0 + 1) qz0 [⊥]) >>=
              (fun es => pure { model := updatedModel M covs qz0 coef',
                                qz := es.1, logl := es.2, iteration := 0 + 1 }))) := by
      rw [stepOnce_eq]
    rw [hso]
    obtain ⟨axx', axy', hms, hlx, hly, hg⟩ := mStepSums_eval L M
      (buildCache L M trajectories) trajectories qz0 M.nsubtypes M.basis.df
      (lookup_buildCache L M trajectories hkeys) (le_of_eq hq.symm) hrow
    rw [hms, exc_bind_ok,
      show ((axx', axy').1 : List RMat) = axx' from rfl,
      show ((axx', axy').2 : List RVec) = axy' from rfl,
      coefSolve_eval L M.nsubtypes axx' axy' hlx hly, exc_bind_ok]
    cases trajectories with
    | nil => simp [vstackE] at hvs
    | cons t ts =>
      rw [eStep, List.enum_cons, List.foldlM_cons]
      have hlk := lookupE_eq_ok (buildCache L M (t :: ts)) t.key _
        (lookup_buildCache L M (t :: ts) hkeys t (List.mem_cons_self t ts))
      simp only [hlk, exc_bind_ok]
      rw [setE_eq_ok qz0 0 _ (by rw [hq]; simp), exc_bind_ok,
        getE_eq_err [⊥] (0 + 1) (by simp), exc_bind_err, exc_bind_err, exc_bind_err]
      rfl
  rw [SubtypeMixture.fit, hfull]
  rfl

/-- Witness for the C9 theorem on a concrete model and dataset. -/
theorem fit_max_iter_zero_witness :
    model0.fit numlib0 [rtrj0] [[1]] 0 1 = Except.error "index out of range" :=
  fit_max_iter_zero numlib0 model0 [rtrj0] [[1]] 1 [[1]] rfl (by simp [rtrj0])
    (by simp) (by intro r hr; simp at hr; simp [hr, model0])

/-- Characterisation of a successful convergence test. -/
theorem stopCheck_ok_iff (max_iter : ℕ) (tol : ℝ) (st : EMState) (b : Bool) :
    stopCheck max_iter tol st = Except.ok b ↔
      ∃ cur prev : EReal, getE st.logl st.iteration = Except.ok cur ∧
        getE st.logl (st.iteration - 1) = Except.ok prev ∧
        b = (decide (max_iter ≤ st.iteration) ||
          decide ((cur - prev) / eabs cur < (tol : EReal))) := by
  rw [stopCheck]
  cases hcur : getE st.logl st.iteration with
  | error e =>
    rw [exc_bind_err]
    constructor
    · intro h; cases h
    · rintro ⟨cur, prev, hcur', _, _⟩
      simp at hcur'
  | ok cur =>
    rw [exc_bind_ok]
    cases hprev : getE st.logl (st.iteration - 1) with
    | error e =>
      rw [exc_bind_err]
      constructor
      · intro h; cases h
      · rintro ⟨cur', prev, _, hprev', _⟩
        simp at hprev'
    | ok prev =>
      rw [exc_bind_ok]
      constructor
      · intro h
        refine ⟨cur, prev, rfl, rfl, ?_⟩
        simp only [pure, Except.pure, Except.ok.injEq] at h
        exact h.symm
      · rintro ⟨cur', prev', hcur', hprev', hb⟩
        cases hcur'
        cases hprev'
        simp only [pure, Except.pure, Except.ok.injEq]
        exact hb.symm

/-- C2 (amended): the EM loop of `fit` stops exactly at the first pass whose
state satisfies the convergence test — the iteration count has reached
`max_iter` or the normalized change `(logl[i] - logl[i-1]) / |logl[i]|` is
below `tol`; reaching `max_iter` this way is a normal `Except.ok` return, not
an error.  Every earlier pass satisfied neither disjunct. -/
theorem emLoop_stops (L : NumLib) (trajectories : List (Trajectory ℝ))
    (cache : List (ℕ × TrajectoryData)) (covariates : RMat)
    (max_iter : ℕ) (tol : ℝ) :
    ∀ (fuel : ℕ) (st r : EMState),
      emLoop L trajectories cache covariates max_iter tol fuel st = Except.ok r →
      ∃ n, stepN L trajectories cache covariates (n + 1) st = Except.ok r ∧
        (∃ cur prev : EReal, getE r.logl r.iteration = Except.ok cur ∧
          getE r.logl (r.iteration - 1) = Except.ok prev ∧
          (max_iter ≤ r.iteration ∨ (cur - prev) / eabs cur < (tol : EReal))) ∧
        ∀ (m : ℕ) (s' : EMState), 1 ≤ m → m ≤ n →
          stepN L trajectories cache covariates m st = Except.ok s' →
          ∃ cur prev : EReal, getE s'.logl s'.iteration = Except.ok cur ∧
            getE s'.logl (s'.iteration - 1) = Except.ok prev ∧
            ¬(max_iter ≤ s'.iteration) ∧
            ¬((cur - prev) / eabs cur < (tol : EReal)) := by
  intro fuel
  induction fuel with
  | zero => intro st r h; cases h
  | succ fuel ih =>
    intro st r h
    rw [emLoop] at h
    cases hso : stepOnce L trajectories cache covariates st with
    | error e => rw [hso, exc_bind_err] at h; cases h
    | ok st' =>
      rw [hso, exc_bind_ok] at h
      cases hsc : stopCheck max_iter tol st' with
      | error e => rw [hsc, exc_bind_err] at h; cases h
      | ok b =>
        rw [hsc, exc_bind_ok] at h
        cases b with
        | true =>
          rw [if_pos rfl] at h
          simp only [pure, Except.pure, Except.ok.injEq] at h
          subst h
          obtain ⟨cur, prev, hcur, hprev, hb⟩ := (stopCheck_ok_iff _ _ _ _).mp hsc
          refine ⟨0, ?_, ⟨cur, prev, hcur, hprev, ?_⟩, ?_⟩
          · rw [stepN, hso, exc_bind_ok]
            rfl
          · have := hb.symm
            rcases Bool.or_eq_true_iff.mp this with hd | hd
            · exact Or.inl (of_decide_eq_true hd)
            · exact Or.inr (of_decide_eq_true hd)
          · intro m s' h1 h2
            omega
        | false =>
          rw [if_neg (by simp)] at h
          obtain ⟨n, hchain, hstop, hmid⟩ := ih st' r h
          obtain ⟨cur, prev, hcur, hprev, hb⟩ := (stopCheck_ok_iff _ _ _ _).mp hsc
          have hnostop : ¬(max_iter ≤ st'.iteration) ∧
              ¬((cur - prev) / eabs cur < (tol : EReal)) := by
            have := hb.symm
            rw [Bool.or_eq_false_iff] at this
            exact ⟨of_decide_eq_false this.1, of_decide_eq_false this.2⟩
          refine ⟨n + 1, ?_, hstop, ?_⟩
          · rw [stepN, hso, exc_bind_ok]
            exact hchain
          · intro m s' h1 h2 hstepm
            cases m with
            | zero => omega
            | succ m' =>
              rw [stepN, hso, exc_bind_ok] at hstepm
              cases m' with
              | zero =>
                simp only [stepN, pure, Except.pure, Except.ok.injEq] at hstepm
                subst hstepm
                exact ⟨cur, prev, hcur, hprev, hnostop⟩
              | succ m'' =>
                exact hmid (m'' + 1) s' (by omega) (by omega) hstepm

/-- Python `abs` agrees with the real absolute value on finite trace entries. -/
theorem eabs_coe (c : ℝ) : eabs ((c : ℝ) : EReal) = ((|c| : ℝ) : EReal) := by
  rw [eabs]
  by_cases h : c < 0
  · rw [if_pos (by exact_mod_cast h), ← EReal.coe_neg, abs_of_neg h]
  · rw [if_neg (by exact_mod_cast h), abs_of_nonneg (not_lt.mp h)]

/-- Dividing the top element by one. -/
theorem top_div_one : (⊤ : EReal) / (((1 : ℝ)) : EReal) = ⊤ := by
  rw [div_eq_mul_inv, ← EReal.coe_inv, inv_one]
  exact EReal.top_mul_coe_of_pos one_pos

/-- One E-step pass on the concrete one-subtype model: the posterior becomes
the point mass and the marginal log-likelihood `-1` is added to the trace. -/
theorem estep_model0_eval (q : RVec) (ll : List EReal) (i : ℕ)
    (hi : i + 1 < ll.length) :
    eStep numlib0 cache0 [rtrj0] model0 (i + 1) [q] ll =
      Except.ok ([[1]], ll.set (i + 1) (ll.getD (i + 1) 0 + ((-1 : ℝ) : EReal))) := by
  have hc : cache0.lookup rtrj0.key = some (traj_data numlib0 model0 rtrj0) :=
    lookup_buildCache numlib0 model0 [rtrj0] (by simp) rtrj0 (by simp)
  rw [eStep]
  rw [show (([rtrj0] : List (Trajectory ℝ)).enum) = [(0, rtrj0)] from rfl,
    List.foldlM_cons]
  simp only [lookupE_eq_ok cache0 rtrj0.key _ hc, exc_bind_ok]
  have h1 : (List.range model0.nsubtypes).map (fun z => model0.loglik numlib0 rtrj0 z
      (some (traj_data numlib0 model0 rtrj0).X)
      (some (traj_data numlib0 model0 rtrj0).C)) = [(-1 : ℝ)] := by
    rw [show model0.nsubtypes = 1 from rfl, show (List.range 1) = [0] from rfl,
      List.map_cons, List.map_nil, loglik_some]
    norm_num [model0, cls0, numlib0]
  have h2 : logsumexp [(-1 : ℝ)] = -1 := by
    rw [logsumexp]
    norm_num [Real.log_exp]
  have h3 : ([(-1 : ℝ)]).map (fun l => Real.exp (l - logsumexp [(-1 : ℝ)])) = [1] := by
    rw [h2]
    norm_num [Real.exp_zero]
  simp only [h1, h3]
  simp only [setE_eq_ok [q] 0 _ (by simp), exc_bind_ok]
  simp only [getE_eq_ok ll (i + 1) hi, exc_bind_ok]
  simp only [setE_eq_ok ll (i + 1) _ hi, exc_bind_ok]
  rw [pure_bind, List.foldlM_nil, h2, List.getD_eq_getElem ll _ hi]
  rfl

/-- One full loop pass on the concrete one-subtype model: the model is left
unchanged, the responsibilities become the point mass, and `-1` is added to
the trace at the new iteration index. -/
theorem stepOnce_model0_eval (covs : RMat) (q : RVec) (hq : q.length = 1)
    (ll : List EReal) (i : ℕ) (hi : i + 1 < ll.length) :
    stepOnce numlib0 [rtrj0] cache0 covs
      { model := model0, qz := [q], logl := ll, iteration := i } =
      Except.ok { model := model0, qz := [[1]],
                  logl := ll.set (i + 1) (ll.getD (i + 1) 0 + ((-1 : ℝ) : EReal)),
                  iteration := i + 1 } := by
  have hc : ∀ t ∈ ([rtrj0] : List (Trajectory ℝ)),
      cache0.lookup t.key = some (traj_data numlib0 model0 t) := by
    intro t ht
    have := List.mem_singleton.mp ht
    subst this
    exact lookup_buildCache numlib0 model0 [rtrj0] (by simp) rtrj0 (by simp)
  have hso : stepOnce numlib0 [rtrj0] cache0 covs
      { model := model0, qz := [q], logl := ll, iteration := i } =
      (mStepSums cache0 [rtrj0] [q] 1 1) >>= (fun sums =>
        (coefSolve numlib0 1 sums.1 sums.2) >>= (fun coef' =>
          (eStep numlib0 cache0 [rtrj0] (updatedModel model0 covs [q] coef')
            (i + 1) [q] ll) >>= (fun es =>
            pure { model := updatedModel model0 covs [q] coef',
                   qz := es.1, logl := es.2, iteration := i + 1 }))) := by
    rw [stepOnce_eq]
    rfl
  rw [hso]
  obtain ⟨axx, axy, hms, hlx, hly, hg⟩ := mStepSums_eval numlib0 model0 cache0
    [rtrj0] [q] 1 1 hc (by simp)
    (by
      intro r hr
      have := List.mem_singleton.mp hr
      subst this
      exact hq)
  rw [hms, exc_bind_ok,
    show ((axx, axy).1 : List RMat) = axx from rfl,
    show ((axx, axy).2 : List RVec) = axy from rfl,
    coefSolve_eval numlib0 1 axx axy hlx hly, exc_bind_ok]
  have hcoefv : (List.range 1).map (fun z =>
      numlib0.solveV (axx.getD z []) (axy.getD z [])) = [[0]] := rfl
  rw [hcoefv]
  have hupd : updatedModel model0 covs [q] [[(0 : ℝ)]] = model0 := rfl
  rw [hupd, estep_model0_eval q ll i hi, exc_bind_ok]
  rfl

/-- The first pass of run A of `fit` on the concrete model, stopping at
`max_iter = 1` with the convergence quotient still infinite. -/
theorem emLoop_runA :
    emLoop numlib0 [rtrj0] cache0 [[1]] 1 0 (1 + 1)
      { model := model0, qz := [[1]], logl := [⊥, ((0 : ℝ) : EReal)], iteration := 0 } =
    Except.ok { model := model0, qz := [[1]], logl := [⊥, ((-1 : ℝ) : EReal)],
                iteration := 0 + 1 } := by
  rw [emLoop]
  rw [stepOnce_model0_eval [[1]] [1] rfl [⊥, ((0 : ℝ) : EReal)] 0 (by simp), exc_bind_ok]
  have hset : (([⊥, ((0 : ℝ) : EReal)] : List EReal).set (0 + 1)
      (([⊥, ((0 : ℝ) : EReal)] : List EReal).getD (0 + 1) 0 + ((-1 : ℝ) : EReal))) =
      [⊥, ((-1 : ℝ) : EReal)] := by
    rw [show (([⊥, ((0 : ℝ) : EReal)] : List EReal).getD (0 + 1) 0) =
      ((0 : ℝ) : EReal) from rfl]
    rw [show ((0 : ℝ) : EReal) + ((-1 : ℝ) : EReal) = ((-1 : ℝ) : EReal) from by
      rw [← EReal.coe_add]; norm_num]
    rfl
  rw [hset]
  have hsc : stopCheck 1 0 { model := model0, qz := [[1]],
                             logl := [⊥, ((-1 : ℝ) : EReal)],
                             iteration := 0 + 1 } = Except.ok true := by
    refine (stopCheck_ok_iff 1 0 _ true).mpr ⟨((-1 : ℝ) : EReal), ⊥, ?_, ?_, ?_⟩
    · rw [getE_eq_ok _ _ (by simp)]
      rfl
    · rw [getE_eq_ok _ _ (by simp)]
      rfl
    · simp
  rw [hsc, exc_bind_ok, if_pos rfl]
  rfl

/-- Run A of `fit` on the concrete model: `max_iter = 1`, `tol = 0`; the loop
stops by reaching `max_iter` with the convergence quotient still infinite. -/
theorem fitFull_runA :
    model0.fitFull numlib0 [rtrj0] [[1]] 1 0 =
      Except.ok { model := model0, qz := [[1]], logl := [⊥, ((-1 : ℝ) : EReal)],
                  iteration := 0 + 1 } := by
  rw [SubtypeMixture.fitFull]
  rw [show vstackE (List.map (fun x => x.covariates) ([rtrj0] : List (Trajectory ℝ))) =
    Except.ok [[(1 : ℝ)]] from rfl]
  rw [exc_bind_ok]
  rw [show setE (List.replicate (1 + 1) ((0 : ℝ) : EReal)) 0 ⊥ =
      Except.ok [⊥, ((0 : ℝ) : EReal)] from by
    rw [setE_eq_ok _ _ _ (by simp)]; rfl]
  rw [exc_bind_ok]
  rw [show buildCache numlib0 model0 [rtrj0] = cache0 from rfl]
  exact emLoop_runA

/-- The two passes of run B of `fit` on the concrete model, stopping by the
tolerance test at iteration 2, well before `max_iter = 5`. -/
theorem emLoop_runB :
    emLoop numlib0 [rtrj0] cache0 [[1]] 5 1 (5 + 1)
      { model := model0, qz := [[1]],
        logl := [⊥, ((0 : ℝ) : EReal), ((0 : ℝ) : EReal), ((0 : ℝ) : EReal),
          ((0 : ℝ) : EReal), ((0 : ℝ) : EReal)], iteration := 0 } =
    Except.ok { model := model0, qz := [[1]],
                logl := [⊥, ((-1 : ℝ) : EReal), ((-1 : ℝ) : EReal), ((0 : ℝ) : EReal),
                  ((0 : ℝ) : EReal), ((0 : ℝ) : EReal)], iteration := 1 + 1 } := by
  have hsum : ((0 : ℝ) : EReal) + ((-1 : ℝ) : EReal) = ((-1 : ℝ) : EReal) := by
    rw [← EReal.coe_add]; norm_num
  have habs : eabs ((-1 : ℝ) : EReal) = ((1 : ℝ) : EReal) := by
    rw [eabs_coe]
    norm_num
  rw [emLoop]
  rw [stepOnce_model0_eval [[1]] [1] rfl _ 0 (by simp), exc_bind_ok]
  have hset1 : (([⊥, ((0 : ℝ) : EReal), ((0 : ℝ) : EReal), ((0 : ℝ) : EReal),
        ((0 : ℝ) : EReal), ((0 : ℝ) : EReal)] : List EReal).set (0 + 1)
      (([⊥, ((0 : ℝ) : EReal), ((0 : ℝ) : EReal), ((0 : ℝ) : EReal),
        ((0 : ℝ) : EReal), ((0 : ℝ) : EReal)] : List EReal).getD (0 + 1) 0 +
        ((-1 : ℝ) : EReal))) =
      [⊥, ((-1 : ℝ) : EReal), ((0 : ℝ) : EReal), ((0 : ℝ) : EReal),
        ((0 : ℝ) : EReal), ((0 : ℝ) : EReal)] := by
    rw [show (([⊥, ((0 : ℝ) : EReal), ((0 : ℝ) : EReal), ((0 : ℝ) : EReal),
      ((0 : ℝ) : EReal), ((0 : ℝ) : EReal)] : List EReal).getD (0 + 1) 0) =
      ((0 : ℝ) : EReal) from rfl, hsum]
    rfl
  rw [hset1]
  have hsc1 : stopCheck 5 1 { model := model0, qz := [[1]],
                              logl := [⊥, ((-1 : ℝ) : EReal), ((0 : ℝ) : EReal),
                                ((0 : ℝ) : EReal), ((0 : ℝ) : EReal), ((0 : ℝ) : EReal)],
                              iteration := 0 + 1 } =
      Except.ok false := by
    refine (stopCheck_ok_iff 5 1 _ false).mpr ⟨((-1 : ℝ) : EReal), ⊥, ?_, ?_, ?_⟩
    · rw [getE_eq_ok _ _ (by simp)]
      rfl
    · rw [getE_eq_ok _ _ (by simp)]
      rfl
    · rw [show ((((-1 : ℝ) : EReal) - ⊥) / eabs ((-1 : ℝ) : EReal)) = ⊤ from by
        rw [EReal.coe_sub_bot, habs, top_div_one]]
      rw [decide_eq_false (not_top_lt),
        show (decide (5 ≤ 0 + 1) : Bool) = false from rfl, Bool.or_false]
  rw [hsc1, exc_bind_ok, if_neg (by simp)]
  rw [show (5 : ℕ) = 4 + 1 from rfl, emLoop]
  rw [stepOnce_model0_eval [[1]] [1] rfl _ 1 (by simp), exc_bind_ok]
  have hset2 : (([⊥, ((-1 : ℝ) : EReal), ((0 : ℝ) : EReal), ((0 : ℝ) : EReal),
        ((0 : ℝ) : EReal), ((0 : ℝ) : EReal)] : List EReal).set (1 + 1)
      (([⊥, ((-1 : ℝ) : EReal), ((0 : ℝ) : EReal), ((0 : ℝ) : EReal),
        ((0 : ℝ) : EReal), ((0 : ℝ) : EReal)] : List EReal).getD (1 + 1) 0 +
        ((-1 : ℝ) : EReal))) =
      [⊥, ((-1 : ℝ) : EReal), ((-1 : ℝ) : EReal), ((0 : ℝ) : EReal),
        ((0 : ℝ) : EReal), ((0 : ℝ) : EReal)] := by
    rw [show (([⊥, ((-1 : ℝ) : EReal), ((0 : ℝ) : EReal), ((0 : ℝ) : EReal),
      ((0 : ℝ) : EReal), ((0 : ℝ) : EReal)] : List EReal).getD (1 + 1) 0) =
      ((0 : ℝ) : EReal) from rfl, hsum]
    rfl
  rw [hset2]
  have hsc2 : stopCheck 5 1 { model := model0, qz := [[1]],
                              logl := [⊥, ((-1 : ℝ) : EReal), ((-1 : ℝ) : EReal),
                                ((0 : ℝ) : EReal), ((0 : ℝ) : EReal), ((0 : ℝ) : EReal)],
                              iteration := 1 + 1 } =
      Except.ok true := by
    refine (stopCheck_ok_iff 5 1 _ true).mpr
      ⟨((-1 : ℝ) : EReal), ((-1 : ℝ) : EReal), ?_, ?_, ?_⟩
    · rw [getE_eq_ok _ _ (by simp)]
      rfl
    · rw [getE_eq_ok _ _ (by simp)]
      rfl
    · rw [show ((((-1 : ℝ) : EReal) - ((-1 : ℝ) : EReal)) / eabs ((-1 : ℝ) : EReal)) =
        ((0 : ℝ) : EReal) from by
          rw [← EReal.coe_sub, habs, ← EReal.coe_div]
          norm_num]
      rw [decide_eq_true (show ((0 : ℝ) : EReal) < ((1 : ℝ) : EReal) from by
        exact_mod_cast one_pos), Bool.or_true]
  rw [hsc2, exc_bind_ok, if_pos rfl]
  rfl

/-- Run B of `fit` on the concrete model: `max_iter = 5`, `tol = 1`; the loop
stops by the tolerance test at iteration 2. -/
theorem fitFull_runB :
    model0.fitFull numlib0 [rtrj0] [[1]] 5 1 =
      Except.ok { model := model0, qz := [[1]],
                  logl := [⊥, ((-1 : ℝ) : EReal), ((-1 : ℝ) : EReal), ((0 : ℝ) : EReal),
                    ((0 : ℝ) : EReal), ((0 : ℝ) : EReal)], iteration := 1 + 1 } := by
  rw [SubtypeMixture.fitFull]
  rw [show vstackE (List.map (fun x => x.covariates) ([rtrj0] : List (Trajectory ℝ))) =
    Except.ok [[(1 : ℝ)]] from rfl]
  rw [exc_bind_ok]
  rw [show setE (List.replicate (5 + 1) ((0 : ℝ) : EReal)) 0 ⊥ =
      Except.ok [⊥, ((0 : ℝ) : EReal), ((0 : ℝ) : EReal), ((0 : ℝ) : EReal),
        ((0 : ℝ) : EReal), ((0 : ℝ) : EReal)] from by
    rw [setE_eq_ok _ _ _ (by simp)]; rfl]
  rw [exc_bind_ok]
  rw [show buildCache numlib0 model0 [rtrj0] = cache0 from rfl]
  exact emLoop_runB

/-- Counterexample for the distinguishability part of C2: run A stops by
reaching `max_iter` without meeting `tol` (iteration 1 = `max_iter`, quotient
not below `tol`), run B stops by the tolerance test (iteration 2, strictly
before `max_iter = 5`), yet `fit` returns exactly the same value for both:
the caller receives only the model, with no flag and no trace, and cannot
tell the two outcomes apart. -/
theorem fit_termination_indistinguishable :
    SubtypeMixture.fit model0 numlib0 [rtrj0] [[1]] 1 0 =
      SubtypeMixture.fit model0 numlib0 [rtrj0] [[1]] 5 1 ∧
    SubtypeMixture.fit model0 numlib0 [rtrj0] [[1]] 1 0 = Except.ok model0 ∧
    (model0.fitFull numlib0 [rtrj0] [[1]] 1 0).map (fun s => s.iteration) =
      Except.ok 1 ∧
    ¬ stoppedByTol 0 (model0.fitFull numlib0 [rtrj0] [[1]] 1 0) ∧
    (model0.fitFull numlib0 [rtrj0] [[1]] 5 1).map (fun s => s.iteration) =
      Except.ok 2 ∧
    stoppedByTol 1 (model0.fitFull numlib0 [rtrj0] [[1]] 5 1) := by
  have habs : eabs ((-1 : ℝ) : EReal) = ((1 : ℝ) : EReal) := by
    rw [eabs_coe]
    norm_num
  refine ⟨?_, ?_, ?_, ?_, ?_, ?_⟩
  · rw [SubtypeMixture.fit, SubtypeMixture.fit, fitFull_runA, fitFull_runB]
    rfl
  · rw [SubtypeMixture.fit, fitFull_runA]
    rfl
  · rw [fitFull_runA]
    rfl
  · rintro ⟨st, cur, prev, hok, hcur, hprev, hlt⟩
    rw [fitFull_runA] at hok
    simp only [Except.ok.injEq] at hok
    subst hok
    have hcur' : cur = ((-1 : ℝ) : EReal) := by
      rw [getE_eq_ok _ _ (by simp)] at hcur
      simpa using hcur.symm
    have hprev' : prev = (⊥ : EReal) := by
      rw [getE_eq_ok _ _ (by simp)] at hprev
      simpa using hprev.symm
    subst hcur'
    subst hprev'
    rw [show ((((-1 : ℝ) : EReal) - ⊥) / eabs ((-1 : ℝ) : EReal)) = ⊤ from by
      rw [EReal.coe_sub_bot, habs, top_div_one]] at hlt
    exact not_top_lt hlt
  · rw [fitFull_runB]
    rfl
  · refine ⟨{ model := model0, qz := [[1]],
              logl := [⊥, ((-1 : ℝ) : EReal), ((-1 : ℝ) : EReal), ((0 : ℝ) : EReal),
                ((0 : ℝ) : EReal), ((0 : ℝ) : EReal)], iteration := 1 + 1 },
      ((-1 : ℝ) : EReal), ((-1 : ℝ) : EReal), fitFull_runB, ?_, ?_, ?_⟩
    · rw [getE_eq_ok _ _ (by simp)]
      rfl
    · rw [getE_eq_ok _ _ (by simp)]
      rfl
    · rw [show ((((-1 : ℝ) : EReal) - ((-1 : ℝ) : EReal)) / eabs ((-1 : ℝ) : EReal)) =
        ((0 : ℝ) : EReal) from by
          rw [← EReal.coe_sub, habs, ← EReal.coe_div]
          norm_num]
      exact_mod_cast (zero_lt_one : (0 : ℝ) < 1)

/-- Witness for the C2 stopping theorem on the concrete run A. -/
theorem emLoop_stops_witness :
    ∃ n, stepN numlib0 [rtrj0] cache0 [[1]] (n + 1)
        { model := model0, qz := [[1]], logl := [⊥, ((0 : ℝ) : EReal)], iteration := 0 } =
        Except.ok { model := model0, qz := [[1]], logl := [⊥, ((-1 : ℝ) : EReal)], iteration := 0 + 1 } ∧
      (∃ cur prev : EReal,
        getE [⊥, ((-1 : ℝ) : EReal)] (0 + 1) = Except.ok cur ∧
        getE [⊥, ((-1 : ℝ) : EReal)] (0 + 1 - 1) = Except.ok prev ∧
        (1 ≤ 0 + 1 ∨ (cur - prev) / eabs cur < (((0 : ℝ)) : EReal))) ∧
      ∀ (m : ℕ) (s' : EMState), 1 ≤ m → m ≤ n →
        stepN numlib0 [rtrj0] cache0 [[1]] m
          { model := model0, qz := [[1]], logl := [⊥, ((0 : ℝ) : EReal)], iteration := 0 } =
          Except.ok s' →
        ∃ cur prev : EReal, getE s'.logl s'.iteration = Except.ok cur ∧
          getE s'.logl (s'.iteration - 1) = Except.ok prev ∧
          ¬(1 ≤ s'.iteration) ∧ ¬((cur - prev) / eabs cur < (((0 : ℝ)) : EReal)) :=
  emLoop_stops numlib0 [rtrj0] cache0 [[1]] 1 0 (1 + 1) _ _ emLoop_runA

/-- C10: the convergence test compares the signed normalized change with
`tol`; consequently, after any pass in which the total log-likelihood
decreased (both trace entries finite), the normalized change is below every
positive `tol` and the loop stops at that pass. -/
theorem decrease_stops_loop (L : NumLib) (trajectories : List (Trajectory ℝ))
    (cache : List (ℕ × TrajectoryData)) (covariates : RMat) (max_iter : ℕ)
    (tol : ℝ) (fuel : ℕ) (st st' : EMState) (c p : ℝ)
    (hstep : stepOnce L trajectories cache covariates st = Except.ok st')
    (hcur : getE st'.logl st'.iteration = Except.ok ((c : ℝ) : EReal))
    (hprev : getE st'.logl (st'.iteration - 1) = Except.ok ((p : ℝ) : EReal))
    (hdec : c < p) (htol : 0 < tol) :
    ((((c : ℝ) : EReal) - ((p : ℝ) : EReal)) / eabs ((c : ℝ) : EReal) <
      (tol : EReal)) ∧
    emLoop L trajectories cache covariates max_iter tol (fuel + 1) st =
      Except.ok st' := by
  have habs : (((c : ℝ) : EReal) - ((p : ℝ) : EReal)) / eabs ((c : ℝ) : EReal) <
      (tol : EReal) := by
    rw [← EReal.coe_sub, eabs_coe]
    by_cases hc0 : c = 0
    · subst hc0
      rw [abs_zero, EReal.coe_zero, EReal.div_zero]
      exact_mod_cast htol
    · rw [← EReal.coe_div]
      have hlt : (c - p) / |c| < tol :=
        lt_trans (div_neg_of_neg_of_pos (by linarith) (abs_pos.mpr hc0)) htol
      exact_mod_cast hlt
  refine ⟨habs, ?_⟩
  rw [emLoop, hstep, exc_bind_ok]
  have hsc : stopCheck max_iter tol st' = Except.ok true := by
    refine (stopCheck_ok_iff max_iter tol st' true).mpr ⟨_, _, hcur, hprev, ?_⟩
    rw [decide_eq_true habs, Bool.or_true]
  rw [hsc, exc_bind_ok, if_pos rfl]
  rfl

/-- Witness for the C10 theorem: a state whose pass drops the total
log-likelihood from 5 to -1 makes the loop stop immediately. -/
theorem decrease_stops_loop_witness :
    ((((-1 : ℝ) : EReal) - ((5 : ℝ) : EReal)) / eabs (((-1 : ℝ)) : EReal) <
      (((1 : ℝ)) : EReal)) ∧
    emLoop numlib0 [rtrj0] cache0 [[1]] 100 1 (0 + 1)
      { model := model0, qz := [[1]],
        logl := [⊥, ((5 : ℝ) : EReal), ((0 : ℝ) : EReal)], iteration := 1 } =
      Except.ok { model := model0, qz := [[1]],
                  logl := [⊥, ((5 : ℝ) : EReal), ((-1 : ℝ) : EReal)],
                  iteration := 1 + 1 } :=
  decrease_stops_loop numlib0 [rtrj0] cache0 [[1]] 100 1 0 _ _ (-1) 5
    (by
      have h := stepOnce_model0_eval [[1]] [1] rfl
        [⊥, ((5 : ℝ) : EReal), ((0 : ℝ) : EReal)] 1 (by simp)
      rw [show (([⊥, ((5 : ℝ) : EReal), ((0 : ℝ) : EReal)] : List EReal).set (1 + 1)
          (([⊥, ((5 : ℝ) : EReal), ((0 : ℝ) : EReal)] : List EReal).getD (1 + 1) 0 +
            ((-1 : ℝ) : EReal))) =
          [⊥, ((5 : ℝ) : EReal), ((-1 : ℝ) : EReal)] from by
        rw [show (([⊥, ((5 : ℝ) : EReal), ((0 : ℝ) : EReal)] : List EReal).getD
          (1 + 1) 0) = ((0 : ℝ) : EReal) from rfl]
        rw [show ((0 : ℝ) : EReal) + ((-1 : ℝ) : EReal) = ((-1 : ℝ) : EReal) from by
          rw [← EReal.coe_add]; norm_num]
        rfl] at h
      exact h)
    (by rw [getE_eq_ok _ _ (by simp)]; rfl)
    (by rw [getE_eq_ok _ _ (by simp)]; rfl)
    (by norm_num) (by norm_num)

/-- Witness for the C5 theorem: one concrete successful pass, whose produced
coefficients are the solver applied to the responsibility-weighted sums. -/
theorem fit_cached_mstep_witness :
    ({ model := model0, qz := [[1]], logl := [⊥, ((-1 : ℝ) : EReal)],
       iteration := 0 + 1 } : EMState).model.coef =
      (List.range model0.nsubtypes).map (fun z =>
        numlib0.solveV (mstep_xx_spec numlib0 model0 [rtrj0] [[1]] model0.basis.df z)
          (mstep_xy_spec numlib0 model0 [rtrj0] [[1]] model0.basis.df z)) :=
  fit_cached_mstep.1 numlib0 model0 [rtrj0] [[1]]
    { model := model0, qz := [[1]], logl := [⊥, ((0 : ℝ) : EReal)], iteration := 0 }
    { model := model0, qz := [[1]], logl := [⊥, ((-1 : ℝ) : EReal)], iteration := 0 + 1 }
    (by simp) (by simp)
    (by
      intro r hr
      have := List.mem_singleton.mp hr
      subst this
      rfl)
    (by
      have h := stepOnce_model0_eval [[1]] [1] rfl [⊥, ((0 : ℝ) : EReal)] 0 (by simp)
      rw [show (([⊥, ((0 : ℝ) : EReal)] : List EReal).set (0 + 1)
          (([⊥, ((0 : ℝ) : EReal)] : List EReal).getD (0 + 1) 0 +
            ((-1 : ℝ) : EReal))) = [⊥, ((-1 : ℝ) : EReal)] from by
        rw [show (([⊥, ((0 : ℝ) : EReal)] : List EReal).getD (0 + 1) 0) =
          ((0 : ℝ) : EReal) from rfl]
        rw [show ((0 : ℝ) : EReal) + ((-1 : ℝ) : EReal) = ((-1 : ℝ) : EReal) from by
          rw [← EReal.coe_add]; norm_num]
        rfl] at h
      exact h)
